import Mathlib

/-!
Verification development for the Lighthouse localization module
(`shared/localization/message.js` and its companion format file).

JavaScript values are embedded as `JsonVal` (rationals stand in for JS
numbers), JS objects as association lists in insertion order, and ICU
message templates at the level of the AST produced by the external
`intl-messageformat-parser` (parsing itself is third-party code and is
not modelled).  Throwing functions return `Except String`.
-/

set_option autoImplicit false

namespace Lighthouse

/-- Embedded JavaScript values: strings, numbers (as rationals),
booleans, `null`, `undefined`, objects (association lists in insertion
order) and arrays. -/
inductive JsonVal where
  | str (s : String)
  | num (q : ℚ)
  | bool (b : Bool)
  | null
  | undefined
  | obj (fields : List (String × JsonVal))
  | arr (items : List JsonVal)

/-- A JS record of named values, e.g. the `values` argument of
`_formatMessage`. -/
abbrev Record := List (String × JsonVal)

/-- First-match lookup in an association list (JS property access;
JS objects cannot hold duplicate keys). -/
def recLookup {α : Type} : List (String × α) → String → Option α
  | [], _ => none
  | (k, v) :: rest, key => if k = key then some v else recLookup rest key

/-- The JS `in` operator: key presence. -/
def recHas {α : Type} (m : List (String × α)) (key : String) : Bool :=
  (recLookup m key).isSome

/-- JS property read with `undefined` for an absent key. -/
def recGet (m : Record) (key : String) : JsonVal :=
  (recLookup m key).getD .undefined

/-- JS property assignment `m[key] = v`: update in place when the key
exists, append otherwise. -/
def recSet {α : Type} (m : List (String × α)) (key : String) (v : α) :
    List (String × α) :=
  if recHas m key then
    m.map (fun p => if p.1 = key then (key, v) else p)
  else
    m ++ [(key, v)]

/-- JS truthiness of an embedded value. -/
def jsTruthy : JsonVal → Bool
  | .str s => !(s = "")
  | .num q => !(q = 0)
  | .bool b => b
  | .null => false
  | .undefined => false
  | .obj _ => true
  | .arr _ => true

/-- JS `Math.round`: round half toward positive infinity. -/
def jsRound (q : ℚ) : ℤ := ⌊q + 1/2⌋

/-! ### The ICU message AST

The shape of the `intl-messageformat-parser` elements that
`message.js` inspects: plain text elements and argument elements
`\x7bvarName\x7d` / `\x7bvarName, number, style\x7d`, whose optional
format may be a number format with a style, a plural format with
options (each option holding a nested element list), or some other
format kind. -/

mutual

inductive IcuElement where
  | messageTextElement (value : String)
  | argumentElement (id : String) (format : Option IcuFormat)

inductive IcuFormat where
  | numberFormat (style : String)
  | pluralFormat (options : List IcuOption)
  | otherFormat (type : String)

inductive IcuOption where
  | mk (selector : String) (value : List IcuElement)

end

/-- The element list held by an option (`option.value.elements`). -/
def IcuOption.elements : IcuOption → List IcuElement
  | .mk _ value => value

/-- The `id` field of an element (arbitrary-text elements have none;
only argument elements are ever stored keyed by id). -/
def IcuElement.argId : IcuElement → String
  | .argumentElement id _ => id
  | .messageTextElement _ => ""

/-- The `format` field of an element. -/
def IcuElement.argFormat : IcuElement → Option IcuFormat
  | .argumentElement _ format => format
  | .messageTextElement _ => none

/-- A map from ids to elements (`Map<string, ArgumentElement>` in
insertion order). -/
abbrev ElementMap := List (String × IcuElement)

mutual

/-- `collectAllCustomElementsFromICU` from `message.js`: walk the
element list, record every argument element keyed on its id
(`Map.set`), and recurse into the options of plural formats before
moving on to the rest of the list. -/
def collectAllCustomElementsFromICU : List IcuElement → ElementMap → ElementMap
  | [], seenElementsById => seenElementsById
  | .messageTextElement _ :: rest, seenElementsById =>
    collectAllCustomElementsFromICU rest seenElementsById
  | .argumentElement id (some (.pluralFormat options)) :: rest, seenElementsById =>
    collectAllCustomElementsFromICU rest
      (collectFromPluralOptions options
        (recSet seenElementsById id
          (.argumentElement id (some (.pluralFormat options)))))
  | .argumentElement id format :: rest, seenElementsById =>
    collectAllCustomElementsFromICU rest
      (recSet seenElementsById id (.argumentElement id format))
termination_by l _ => sizeOf l
decreasing_by
  all_goals simp_wf
  all_goals omega

/-- The inner loop of `collectAllCustomElementsFromICU` over the
options of a plural format, running the collection on each option's
elements. -/
def collectFromPluralOptions : List IcuOption → ElementMap → ElementMap
  | [], seenElementsById => seenElementsById
  | .mk _ value :: rest, seenElementsById =>
    collectFromPluralOptions rest
      (collectAllCustomElementsFromICU value seenElementsById)
termination_by l _ => sizeOf l
decreasing_by
  all_goals simp_wf
  all_goals omega

end

/-- The body of the first loop of `_preformatValues`, processing one
argument element `\x7bid, format\x7d` against the provided `values`. -/
def preformatStep (values : Record) (lhlMessage : String)
    (formattedValues : Record) (el : IcuElement) : Except String Record :=
  if el.argId ≠ "" ∧ ¬ recHas values el.argId then
    .error ("ICU Message " ++ lhlMessage ++ " contains a value reference (" ++
      el.argId ++ ") that was not provided")
  else
    match el.argFormat with
    | some (.numberFormat style) =>
      match recGet values el.argId with
      | .num v =>
        if style = "milliseconds" then
          .ok (recSet formattedValues el.argId (.num ((jsRound (v / 10) : ℚ) * 10)))
        else if style = "seconds" ∧ el.argId = "timeInMs" then
          .ok (recSet formattedValues el.argId (.num ((jsRound (v / 100) : ℚ) / 10)))
        else if style = "bytes" then
          .ok (recSet formattedValues el.argId (.num (v / 1024)))
        else
          .ok (recSet formattedValues el.argId (.num v))
      | _ =>
        .error ("ICU Message " ++ lhlMessage ++ " contains a numeric reference (" ++
          el.argId ++ ") but provided value was not a number")
    | _ => .ok (recSet formattedValues el.argId (recGet values el.argId))

/-- The first loop of `_preformatValues` over the collected argument
elements. -/
def preformatFold (values : Record) (lhlMessage : String)
    (formattedValues : Record) : List IcuElement → Except String Record
  | [] => .ok formattedValues
  | el :: rest => do
    let acc ← preformatStep values lhlMessage formattedValues el
    preformatFold values lhlMessage acc rest

/-- The second loop of `_preformatValues`: throw when a provided value
has no placeholder in the message, except for the always-allowed
`errorCode` key, which is copied through. -/
def checkExtraKeys (values : Record) (lhlMessage : String)
    (formattedValues : Record) : List String → Except String Record
  | [] => .ok formattedValues
  | valueId :: rest =>
    if recHas formattedValues valueId then
      checkExtraKeys values lhlMessage formattedValues rest
    else if valueId = "errorCode" then
      checkExtraKeys values lhlMessage
        (recSet formattedValues "errorCode" (recGet values "errorCode")) rest
    else
      .error ("Provided value " ++ valueId ++ " does not match any placeholder in " ++
        "ICU message " ++ lhlMessage)

/-- `_preformatValues` from `message.js`, over the parsed AST of the
message (`messageFormatter.getAst().elements`): collect the argument
elements, convert each provided value according to its number style,
then validate that every remaining provided key has a placeholder. -/
def _preformatValues (elements : List IcuElement) (values : Record)
    (lhlMessage : String) : Except String Record := do
  let elementMap := collectAllCustomElementsFromICU elements []
  let argumentElements := elementMap.map (·.2)
  let formattedValues ← preformatFold values lhlMessage [] argumentElements
  checkExtraKeys values lhlMessage formattedValues (values.map (·.1))

/-- Modelled from the spec: a plain string rendering of a value, used
by the modelled external formatter. -/
def jsValToDisplay : JsonVal → String
  | .str s => s
  | .num q => toString q
  | _ => ""

/-- Modelled from the spec: the external formatting library
(`intl-messageformat`, not part of this repository) is "deterministic
synchronous string substitution"; the plural engine is delegated and
not modelled, so substitution is over the top-level elements. -/
def formatAst (elements : List IcuElement) (values : Record)
    (_locale : String) : String :=
  elements.foldl
    (fun acc el =>
      acc ++
        match el with
        | .messageTextElement t => t
        | .argumentElement id _ => jsValToDisplay (recGet values id))
    ""

/-- Modelled from the spec: the source passes the original message
string to `_preformatValues` for error text; at the AST level the
template is serialized back to a string for the same purpose. -/
def astToString (elements : List IcuElement) : String :=
  elements.foldl
    (fun acc el =>
      acc ++
        match el with
        | .messageTextElement t => t
        | .argumentElement id _ => "\x7b" ++ id ++ "\x7d")
    ""

/-- `_formatMessage` from `message.js`: force `de-DE` number
formatting for the accented-english pseudo-locales, preformat the
values (which may throw), then format. The message is represented by
its parsed AST. -/
def _formatMessage (message : List IcuElement) (values : Record)
    (locale : String) : Except String String :=
  match _preformatValues message values (astToString message) with
  | .error e => .error e
  | .ok valuesForMessageFormat =>
    .ok (formatAst message valuesForMessageFormat
      (if locale = "en-XA" ∨ locale = "en-XL" then "de-DE" else locale))

/-! ### The format module (`format.js`)

The locale message store `LOCALE_MESSAGES` maps a locale tag to a
table from message ids to messages; each stored message's `message`
string is represented by its parsed AST (parsing is done by the
external `intl-messageformat` library). -/

/-- One entry of a locale's message table (`\x7bmessage: ...\x7d`),
with the message string represented by its parsed AST. -/
structure LhlMessage where
  message : List IcuElement

/-- A locale's message table: message id to message. -/
abbrev LhlMessages := List (String × LhlMessage)

/-- The module-level `LOCALE_MESSAGES` store: locale to message
table. -/
abbrev LocaleStore := List (String × LhlMessages)

/-- Modelled from the spec: `isObjectOfUnknownValues` from
`type-verifiers.js` (a repository file outside the provided sources):
a type guard for a plain object (not `null`, not an array). -/
def isObjectOfUnknownValues : JsonVal → Bool
  | .obj _ => true
  | _ => false

/-- Modelled from the spec: `isObjectOrArrayOfUnknownValues` from
`type-verifiers.js` (a repository file outside the provided sources):
a type guard for an object or an array. -/
def isObjectOrArrayOfUnknownValues : JsonVal → Bool
  | .obj _ => true
  | .arr _ => true
  | _ => false

/-- JS property access on an embedded value: `undefined` unless the
value is an object holding the key. -/
def objGet (v : JsonVal) (key : String) : JsonVal :=
  match v with
  | .obj fields => recGet fields key
  | _ => .undefined

/-- `MESSAGE_I18N_ID_REGEX.test`. The source regex is
`/ | [^\s]+$/`: its first alternative is a single space, so the test
holds exactly when the id contains a space. -/
def messageI18nIdRegexTest (i18nId : String) : Bool :=
  i18nId.data.contains ' '

/-- `isIcuMessage` from `format.js`: a plain object with a string
`i18nId` that passes the id regex, a string `formattedDefault`, and an
optional `values` object whose values are all strings or numbers. -/
def isIcuMessage (icuMessageOrNot : JsonVal) : Bool :=
  if !(isObjectOfUnknownValues icuMessageOrNot) then false
  else
    let i18nId := objGet icuMessageOrNot "i18nId"
    let values := objGet icuMessageOrNot "values"
    let formattedDefault := objGet icuMessageOrNot "formattedDefault"
    match i18nId with
    | .str id =>
      match formattedDefault with
      | .str _ =>
        (match values with
         | .undefined => true
         | .obj vfields =>
           vfields.all (fun p =>
             match p.2 with
             | .str _ => true
             | .num _ => true
             | _ => false)
         | _ => false) &&
        messageI18nIdRegexTest id
      | _ => false
    | _ => false

/-- The `i18nId` of a message object (a string whenever `isIcuMessage`
holds). -/
def i18nIdOf (icuMessage : JsonVal) : String :=
  match objGet icuMessage "i18nId" with
  | .str s => s
  | _ => ""

/-- The `formattedDefault` of a message object. -/
def formattedDefaultOf (icuMessage : JsonVal) : String :=
  match objGet icuMessage "formattedDefault" with
  | .str s => s
  | _ => ""

/-- The `values` of a message object as a record; an absent `values`
yields the empty record, matching `_formatMessage`'s default
parameter. -/
def valuesRecordOf (icuMessage : JsonVal) : Record :=
  match objGet icuMessage "values" with
  | .obj fields => fields
  | _ => []

/-- `_localizeIcuMessage` from `format.js`: throw on an unsupported
locale, fall back to `formattedDefault` when the locale has no message
for the id, and otherwise format the locale's message with the
message's values. -/
def _localizeIcuMessage (store : LocaleStore) (icuMessage : JsonVal)
    (locale : String) : Except String String :=
  match recLookup store locale with
  | none => .error ("Unsupported locale " ++ locale)
  | some localeMessages =>
    match recLookup localeMessages (i18nIdOf icuMessage) with
    | none => .ok (formattedDefaultOf icuMessage)
    | some localeMessage =>
      _formatMessage localeMessage.message (valuesRecordOf icuMessage) locale

/-- `getFormatted` from `format.js`: localize an `LH.IcuMessage`, pass
a raw string through, and throw on anything else. -/
def getFormatted (store : LocaleStore) (icuMessageOrRawString : JsonVal)
    (locale : String) : Except String String :=
  if isIcuMessage icuMessageOrRawString then
    _localizeIcuMessage store icuMessageOrRawString locale
  else
    match icuMessageOrRawString with
    | .str s => .ok s
    | _ => .error "Attempted to format invalid icuMessage type"

/-- The character class of the JS `\s` regex escape. -/
def isJsWhitespace (c : Char) : Bool :=
  c = ' ' || c = '\t' || c = '\n' || c = '\u000d' || c = '\u000b' || c = '\u000c' ||
  c = '\u00a0' || c = '\u1680' || ('\u2000' ≤ c && c ≤ '\u200a') ||
  c = '\u2028' || c = '\u2029' || c = '\u202f' || c = '\u205f' ||
  c = '\u3000' || c = '\ufeff'

/-- The test `/^[a-z]+$/i`: one or more ASCII letters. -/
def isAlphaOnly (property : String) : Bool :=
  !(property = "") && property.toList.all Char.isAlpha

/-- The test `/]|"|'|\s/`: contains a closing bracket, a quote, or
whitespace. -/
def hasPathUnsafeChar (property : String) : Bool :=
  property.toList.any (fun c => c = ']' || c = '\"' || c = '\'' || isJsWhitespace c)

/-- `_formatPathAsString` from `format.js`: join alphabetic path
components with dots, render other components in brackets, and throw
on components holding brackets, quotes or whitespace. -/
def _formatPathAsString (pathInLHR : List String) : Except String String :=
  pathInLHR.foldlM
    (fun pathAsString property =>
      if isAlphaOnly property then
        .ok ((if !(pathAsString = "") then pathAsString ++ "." else pathAsString) ++
          property)
      else if hasPathUnsafeChar property then
        .error ("Cannot handle " ++ property ++ " in i18n")
      else
        .ok (pathAsString ++ "[" ++ property ++ "]"))
    ""

/-- One replacement record of `LH.Result.IcuMessagePaths`: either a
bare path string or a `\x7bvalues, path\x7d` pair. -/
inductive PathEntry where
  | pathOnly (path : String)
  | withValues (values : JsonVal) (path : String)

/-- `LH.Result.IcuMessagePaths`: message id to the list of replaced
locations. -/
abbrev IcuMessagePaths := List (String × List PathEntry)

/-- `icuMessagePaths[i18nId] = (icuMessagePaths[i18nId] || []).push(e)`. -/
def pathsAppend (paths : IcuMessagePaths) (id : String) (entry : PathEntry) :
    IcuMessagePaths :=
  recSet paths id ((recLookup paths id).getD [] ++ [entry])

/-- The path record pushed for a replaced message: the path alone, or
paired with the message's `values` when that field is truthy. -/
def pathEntryFor (icuMessage : JsonVal) (pathAsString : String) : PathEntry :=
  if jsTruthy (objGet icuMessage "values") then
    .withValues (objGet icuMessage "values") pathAsString
  else
    .pathOnly pathAsString

mutual

/-- `replaceInObject` from `replaceIcuMessages`: walk an embedded
value; values that are neither objects nor arrays
(`isObjectOrArrayOfUnknownValues` fails) are left alone. The JS
mutates `subObject` and `icuMessagePaths` in place; here both are
threaded explicitly. -/
def replaceInObject (store : LocaleStore) (locale : String) :
    JsonVal → IcuMessagePaths → List String →
    Except String (JsonVal × IcuMessagePaths)
  | .obj fields, icuMessagePaths, pathInLHR =>
    match replaceInFields store locale fields icuMessagePaths pathInLHR with
    | .error e => .error e
    | .ok (fields2, paths2) => .ok (.obj fields2, paths2)
  | .arr items, icuMessagePaths, pathInLHR =>
    match replaceInItems store locale items icuMessagePaths pathInLHR 0 with
    | .error e => .error e
    | .ok (items2, paths2) => .ok (.arr items2, paths2)
  | v, icuMessagePaths, _ => .ok (v, icuMessagePaths)
termination_by v _ _ => sizeOf v
decreasing_by
  all_goals simp_wf

/-- The entry loop of `replaceInObject` over an object's properties
(`Object.entries`): an `LH.IcuMessage` property value is replaced by
its formatted string and its path recorded; any other value is walked
recursively. -/
def replaceInFields (store : LocaleStore) (locale : String) :
    List (String × JsonVal) → IcuMessagePaths → List String →
    Except String (List (String × JsonVal) × IcuMessagePaths)
  | [], icuMessagePaths, _ => .ok ([], icuMessagePaths)
  | (property, possibleIcuMessage) :: rest, icuMessagePaths, pathInLHR =>
    if isIcuMessage possibleIcuMessage then
      match getFormatted store possibleIcuMessage locale with
      | .error e => .error e
      | .ok formattedString =>
        match _formatPathAsString (pathInLHR ++ [property]) with
        | .error e => .error e
        | .ok currentPathAsString =>
          match replaceInFields store locale rest
              (pathsAppend icuMessagePaths (i18nIdOf possibleIcuMessage)
                (pathEntryFor possibleIcuMessage currentPathAsString)) pathInLHR with
          | .error e => .error e
          | .ok (rest2, paths2) =>
            .ok ((property, .str formattedString) :: rest2, paths2)
    else
      match replaceInObject store locale possibleIcuMessage icuMessagePaths
          (pathInLHR ++ [property]) with
      | .error e => .error e
      | .ok (value2, paths1) =>
        match replaceInFields store locale rest paths1 pathInLHR with
        | .error e => .error e
        | .ok (rest2, paths2) => .ok ((property, value2) :: rest2, paths2)
termination_by l _ _ => sizeOf l
decreasing_by
  all_goals simp_wf
  all_goals omega

/-- The entry loop of `replaceInObject` over an array
(`Object.entries` yields decimal index strings as the property
names). -/
def replaceInItems (store : LocaleStore) (locale : String) :
    List JsonVal → IcuMessagePaths → List String → Nat →
    Except String (List JsonVal × IcuMessagePaths)
  | [], icuMessagePaths, _, _ => .ok ([], icuMessagePaths)
  | possibleIcuMessage :: rest, icuMessagePaths, pathInLHR, index =>
    if isIcuMessage possibleIcuMessage then
      match getFormatted store possibleIcuMessage locale with
      | .error e => .error e
      | .ok formattedString =>
        match _formatPathAsString (pathInLHR ++ [toString index]) with
        | .error e => .error e
        | .ok currentPathAsString =>
          match replaceInItems store locale rest
              (pathsAppend icuMessagePaths (i18nIdOf possibleIcuMessage)
                (pathEntryFor possibleIcuMessage currentPathAsString)) pathInLHR
              (index + 1) with
          | .error e => .error e
          | .ok (rest2, paths2) => .ok (.str formattedString :: rest2, paths2)
    else
      match replaceInObject store locale possibleIcuMessage icuMessagePaths
          (pathInLHR ++ [toString index]) with
      | .error e => .error e
      | .ok (value2, paths1) =>
        match replaceInItems store locale rest paths1 pathInLHR (index + 1) with
        | .error e => .error e
        | .ok (rest2, paths2) => .ok (value2 :: rest2, paths2)
termination_by l _ _ _ => sizeOf l
decreasing_by
  all_goals simp_wf
  all_goals omega

end

/-- `replaceIcuMessages` from `format.js`: recursively replace every
`LH.IcuMessage` property value in the input with its localized string
and return the map of replaced locations. The JS mutates the input and
returns only the path map; the embedding returns the rewritten value
alongside it. -/
def replaceIcuMessages (store : LocaleStore) (inputObject : JsonVal)
    (locale : String) : Except String (JsonVal × IcuMessagePaths) :=
  replaceInObject store locale inputObject [] []

/-- `registerLocaleData` from `format.js`:
`LOCALE_MESSAGES[locale] = lhlMessages`, as an explicit store
update. -/
def registerLocaleData (store : LocaleStore) (locale : String)
    (lhlMessages : LhlMessages) : LocaleStore :=
  recSet store locale lhlMessages

/-! ### Association-list lemmas -/

theorem recHas_iff_mem_keys {α : Type} (m : List (String × α)) (key : String) :
    recHas m key = true ↔ key ∈ m.map (·.1) := by
  induction m with
  | nil => simp [recHas, recLookup]
  | cons p rest ih =>
    obtain ⟨k, v⟩ := p
    by_cases h : k = key
    · simp [recHas, recLookup, h]
    · simp [recHas, recLookup, h] at ih ⊢
      tauto

theorem recLookup_eq_none_of_not_has {α : Type} {m : List (String × α)} {key : String}
    (h : recHas m key = false) : recLookup m key = none := by
  cases hc : recLookup m key with
  | none => rfl
  | some v => rw [recHas, hc] at h; simp at h

theorem recLookup_append {α : Type} (m l : List (String × α)) (key : String) :
    recLookup (m ++ l) key = (recLookup m key).or (recLookup l key) := by
  induction m with
  | nil => simp [recLookup]
  | cons p rest ih =>
    obtain ⟨k, v⟩ := p
    by_cases h : k = key <;> simp [recLookup, h, ih]

theorem recLookup_cons {α : Type} (k : String) (v : α) (rest : List (String × α))
    (key : String) :
    recLookup ((k, v) :: rest) key = if k = key then some v else recLookup rest key :=
  rfl

theorem recLookup_map_replace_self {α : Type} (m : List (String × α)) (key : String)
    (v : α) (h : recHas m key = true) :
    recLookup (m.map (fun p => if p.1 = key then (key, v) else p)) key = some v := by
  induction m with
  | nil => simp [recHas, recLookup] at h
  | cons p rest ih =>
    obtain ⟨k, w⟩ := p
    by_cases hk : k = key
    · subst hk
      have he : (if (k, w).1 = k then (k, v) else (k, w)) = (k, v) := by simp
      rw [List.map_cons, he, recLookup_cons, if_pos rfl]
    · have hrest : recHas rest key = true := by
        simpa [recHas, recLookup, hk] using h
      have he : (if (k, w).1 = key then (key, v) else (k, w)) = (k, w) := by simp [hk]
      rw [List.map_cons, he, recLookup_cons, if_neg hk]
      exact ih hrest

theorem recLookup_map_replace_ne {α : Type} (m : List (String × α)) {key key' : String}
    (v : α) (h : key' ≠ key) :
    recLookup (m.map (fun p => if p.1 = key then (key, v) else p)) key' =
      recLookup m key' := by
  induction m with
  | nil => simp [recLookup]
  | cons p rest ih =>
    obtain ⟨k, w⟩ := p
    by_cases hk : k = key
    · subst hk
      have he : (if (k, w).1 = k then (k, v) else (k, w)) = (k, v) := by simp
      rw [List.map_cons, he, recLookup_cons, recLookup_cons, if_neg (Ne.symm h),
        if_neg (Ne.symm h)]
      exact ih
    · have he : (if (k, w).1 = key then (key, v) else (k, w)) = (k, w) := by simp [hk]
      rw [List.map_cons, he, recLookup_cons, recLookup_cons]
      by_cases hk' : k = key' <;> simp [hk', ih]

theorem recLookup_recSet_self {α : Type} (m : List (String × α)) (key : String) (v : α) :
    recLookup (recSet m key v) key = some v := by
  by_cases h : recHas m key = true
  · simp [recSet, h, recLookup_map_replace_self m key v h]
  · have h' : recHas m key = false := by simpa using h
    simp [recSet, h', recLookup_append, recLookup_eq_none_of_not_has h', recLookup,
      Option.or]

theorem recLookup_recSet_ne {α : Type} (m : List (String × α)) {key key' : String}
    (v : α) (h : key' ≠ key) :
    recLookup (recSet m key v) key' = recLookup m key' := by
  by_cases hh : recHas m key = true
  · simp [recSet, hh, recLookup_map_replace_ne m v h]
  · have h' : recHas m key = false := by simpa using hh
    simp [recSet, h', recLookup_append, recLookup, h]
    cases hc : recLookup m key' <;> simp [Option.or, Ne.symm h]

theorem recHas_recSet_self {α : Type} (m : List (String × α)) (key : String) (v : α) :
    recHas (recSet m key v) key = true := by
  simp [recHas, recLookup_recSet_self]

theorem recHas_recSet_ne {α : Type} (m : List (String × α)) {key key' : String}
    (v : α) (h : key' ≠ key) :
    recHas (recSet m key v) key' = recHas m key' := by
  simp [recHas, recLookup_recSet_ne m v h]

theorem mem_recSet {α : Type} {m : List (String × α)} {key : String} {v : α}
    {p : String × α} (h : p ∈ recSet m key v) : p ∈ m ∨ p = (key, v) := by
  by_cases hh : recHas m key = true
  · simp only [recSet, hh, if_true, List.mem_map] at h
    obtain ⟨q, hq, hqe⟩ := h
    by_cases hk : q.1 = key
    · rw [if_pos hk] at hqe
      right; exact hqe.symm
    · rw [if_neg hk] at hqe
      left; exact hqe ▸ hq
  · have h' : recHas m key = false := by simpa using hh
    simp only [recSet, h', Bool.false_eq_true, if_false, List.mem_append,
      List.mem_singleton] at h
    tauto

theorem keys_recSet_of_has {α : Type} {m : List (String × α)} {key : String} (v : α)
    (h : recHas m key = true) :
    (recSet m key v).map (·.1) = m.map (·.1) := by
  simp only [recSet, h, if_true, List.map_map]
  apply List.map_congr_left
  intro p _
  by_cases hk : p.1 = key <;> simp [hk]

/-- `Nodup` of the key list of an association list. -/
def keysNodup {α : Type} (m : List (String × α)) : Prop :=
  (m.map (·.1)).Nodup

theorem keysNodup_recSet {α : Type} {m : List (String × α)} {key : String} (v : α)
    (h : keysNodup m) : keysNodup (recSet m key v) := by
  by_cases hh : recHas m key = true
  · unfold keysNodup
    rw [keys_recSet_of_has v hh]
    exact h
  · have h' : recHas m key = false := by simpa using hh
    have hmem : key ∉ m.map (·.1) := by
      intro hc
      rw [← recHas_iff_mem_keys] at hc
      simp [hc] at h'
    unfold keysNodup
    simp only [recSet, h', Bool.false_eq_true, if_false, List.map_append]
    rw [List.nodup_append]
    refine ⟨h, by simp, ?_⟩
    intro a ha hc
    simp at hc
    exact hmem (hc ▸ ha)

theorem mem_keys_recSet_of_mem {α : Type} {m : List (String × α)} {key k : String}
    (v : α) (h : k ∈ m.map (·.1)) : k ∈ (recSet m key v).map (·.1) := by
  by_cases hh : recHas m key = true
  · rw [keys_recSet_of_has v hh]; exact h
  · have h' : recHas m key = false := by simpa using hh
    simp only [recSet, h', Bool.false_eq_true, if_false, List.map_append]
    simp [h]

theorem mem_keys_recSet_self {α : Type} (m : List (String × α)) (key : String) (v : α) :
    key ∈ (recSet m key v).map (·.1) := by
  rw [← recHas_iff_mem_keys]
  exact recHas_recSet_self m key v

/-! ### Invariants of `collectAllCustomElementsFromICU` -/

/-- Every entry of an element map stores an argument element keyed on
its own id. -/
def mapIdsOk (m : ElementMap) : Prop :=
  ∀ p ∈ m, ∃ format, p.2 = IcuElement.argumentElement p.1 format

theorem mapIdsOk_recSet {m : ElementMap} {id : String} {format : Option IcuFormat}
    (h : mapIdsOk m) :
    mapIdsOk (recSet m id (.argumentElement id format)) := by
  intro p hp
  rcases mem_recSet hp with hin | he
  · exact h p hin
  · exact ⟨format, by rw [he]⟩

theorem collect_wf (icuElements : List IcuElement) (seen : ElementMap) :
    mapIdsOk seen → keysNodup seen →
    mapIdsOk (collectAllCustomElementsFromICU icuElements seen) ∧
    keysNodup (collectAllCustomElementsFromICU icuElements seen) := by
  refine collectAllCustomElementsFromICU.induct
    (fun icuElements seen =>
      mapIdsOk seen → keysNodup seen →
      mapIdsOk (collectAllCustomElementsFromICU icuElements seen) ∧
      keysNodup (collectAllCustomElementsFromICU icuElements seen))
    (fun options seen =>
      mapIdsOk seen → keysNodup seen →
      mapIdsOk (collectFromPluralOptions options seen) ∧
      keysNodup (collectFromPluralOptions options seen))
    ?_ ?_ ?_ ?_ ?_ ?_ icuElements seen
  · intro seen hIds hNodup
    rw [collectAllCustomElementsFromICU]
    exact ⟨hIds, hNodup⟩
  · intro value rest seen ih hIds hNodup
    rw [collectAllCustomElementsFromICU]
    exact ih hIds hNodup
  · intro id options rest seen ihOptions ih hIds hNodup
    rw [collectAllCustomElementsFromICU]
    have h1 := ihOptions (mapIdsOk_recSet hIds) (keysNodup_recSet _ hNodup)
    exact ih h1.1 h1.2
  · intro id format rest seen hnp ih hIds hNodup
    rw [collectAllCustomElementsFromICU]
    · exact ih (mapIdsOk_recSet hIds) (keysNodup_recSet _ hNodup)
    · exact hnp
  · intro seen hIds hNodup
    rw [collectFromPluralOptions]
    exact ⟨hIds, hNodup⟩
  · intro selector value rest seen ihValue ih hIds hNodup
    rw [collectFromPluralOptions]
    have h1 := ihValue hIds hNodup
    exact ih h1.1 h1.2

/-! ### Lemmas about `_preformatValues` -/

theorem recHas_recSet_of_has {α : Type} {m : List (String × α)} {key k : String}
    (v : α) (h : recHas m k = true) : recHas (recSet m key v) k = true := by
  by_cases hk : k = key
  · subst hk
    exact recHas_recSet_self m k v
  · rw [recHas_recSet_ne m v hk]
    exact h

theorem recHas_recSet_inv {α : Type} {m : List (String × α)} {key k : String} {v : α}
    (h : recHas (recSet m key v) k = true) : recHas m k = true ∨ k = key := by
  by_cases hk : k = key
  · exact Or.inr hk
  · rw [recHas_recSet_ne m v hk] at h
    exact Or.inl h

theorem preformatStep_shape {values : Record} {lhlMessage : String}
    {formattedValues : Record} {el : IcuElement} {acc : Record}
    (h : preformatStep values lhlMessage formattedValues el = .ok acc) :
    ∃ v, acc = recSet formattedValues el.argId v := by
  rw [preformatStep] at h
  by_cases hc : el.argId ≠ "" ∧ ¬ recHas values el.argId = true
  · rw [if_pos hc] at h
    cases h
  · rw [if_neg hc] at h
    rcases hfe : el.argFormat with _ | fmt <;> rw [hfe] at h
    · simp only [] at h
      cases h
      exact ⟨_, rfl⟩
    · rcases fmt with style | options | type
      · rcases hv : recGet values el.argId with s | v | b | _ | _ | fs | its <;>
          rw [hv] at h <;> simp only [] at h
        all_goals try cases h
        by_cases h1 : style = "milliseconds"
        · rw [if_pos h1] at h
          cases h
          exact ⟨_, rfl⟩
        · rw [if_neg h1] at h
          by_cases h2 : style = "seconds" ∧ el.argId = "timeInMs"
          · rw [if_pos h2] at h
            cases h
            exact ⟨_, rfl⟩
          · rw [if_neg h2] at h
            by_cases h3 : style = "bytes"
            · rw [if_pos h3] at h
              cases h
              exact ⟨_, rfl⟩
            · rw [if_neg h3] at h
              cases h
              exact ⟨_, rfl⟩
      · simp only [] at h
        cases h
        exact ⟨_, rfl⟩
      · simp only [] at h
        cases h
        exact ⟨_, rfl⟩

theorem preformatStep_provided {values : Record} {lhlMessage : String}
    {formattedValues : Record} {el : IcuElement} {acc : Record}
    (h : preformatStep values lhlMessage formattedValues el = .ok acc)
    (hne : el.argId ≠ "") : recHas values el.argId = true := by
  by_cases hc : recHas values el.argId = true
  · exact hc
  · exfalso
    have hcond : el.argId ≠ "" ∧ ¬ recHas values el.argId = true := ⟨hne, hc⟩
    rw [preformatStep, if_pos hcond] at h
    cases h

theorem preformatFold_cons (values : Record) (msg : String) (fv : Record)
    (el : IcuElement) (rest : List IcuElement) (out : Record) :
    preformatFold values msg fv (el :: rest) = .ok out ↔
    ∃ acc, preformatStep values msg fv el = .ok acc ∧
      preformatFold values msg acc rest = .ok out := by
  constructor
  · intro h
    rw [preformatFold] at h
    cases hstep : preformatStep values msg fv el with
    | error e => rw [hstep] at h; simp [Bind.bind, Except.bind] at h
    | ok acc =>
      rw [hstep] at h
      simp only [Bind.bind, Except.bind] at h
      exact ⟨acc, rfl, h⟩
  · rintro ⟨acc, h1, h2⟩
    rw [preformatFold, h1]
    simpa [Bind.bind, Except.bind] using h2

theorem preformatFold_provided {values : Record} {msg : String} {fv : Record}
    {es : List IcuElement} {out : Record}
    (h : preformatFold values msg fv es = .ok out) :
    ∀ el ∈ es, el.argId ≠ "" → recHas values el.argId = true := by
  induction es generalizing fv with
  | nil => simp
  | cons el rest ih =>
    rw [preformatFold_cons] at h
    obtain ⟨acc, hstep, hrest⟩ := h
    intro e he hne
    rcases List.mem_cons.mp he with he | he
    · subst he
      exact preformatStep_provided hstep hne
    · exact ih hrest e he hne

theorem preformatFold_lookup_not_mem {values : Record} {msg : String} {fv : Record}
    {es : List IcuElement} {out : Record} {k : String}
    (h : preformatFold values msg fv es = .ok out)
    (hk : k ∉ es.map IcuElement.argId) :
    recLookup out k = recLookup fv k := by
  induction es generalizing fv with
  | nil => rw [preformatFold] at h; cases h; rfl
  | cons el rest ih =>
    rw [preformatFold_cons] at h
    obtain ⟨acc, hstep, hrest⟩ := h
    obtain ⟨v, hv⟩ := preformatStep_shape hstep
    have hk1 : k ∉ rest.map IcuElement.argId := fun hc => hk (by simp [hc])
    have hk2 : k ≠ el.argId := fun hc => hk (by simp [hc])
    rw [ih hrest hk1, hv, recLookup_recSet_ne _ _ hk2]

theorem preformatFold_preserves_has {values : Record} {msg : String} {fv : Record}
    {es : List IcuElement} {out : Record} {k : String}
    (h : preformatFold values msg fv es = .ok out) (hk : recHas fv k = true) :
    recHas out k = true := by
  induction es generalizing fv with
  | nil => rw [preformatFold] at h; cases h; exact hk
  | cons el rest ih =>
    rw [preformatFold_cons] at h
    obtain ⟨acc, hstep, hrest⟩ := h
    obtain ⟨v, hv⟩ := preformatStep_shape hstep
    exact ih hrest (hv ▸ recHas_recSet_of_has v hk)

theorem preformatFold_has_of_mem {values : Record} {msg : String} {fv : Record}
    {es : List IcuElement} {out : Record} {el : IcuElement}
    (h : preformatFold values msg fv es = .ok out) (hel : el ∈ es) :
    recHas out el.argId = true := by
  induction es generalizing fv with
  | nil => cases hel
  | cons e rest ih =>
    rw [preformatFold_cons] at h
    obtain ⟨acc, hstep, hrest⟩ := h
    obtain ⟨v, hv⟩ := preformatStep_shape hstep
    rcases List.mem_cons.mp hel with he | he
    · subst he
      exact preformatFold_preserves_has hrest (hv ▸ recHas_recSet_self fv el.argId v)
    · exact ih hrest he

theorem preformatFold_has_inv {values : Record} {msg : String} {fv : Record}
    {es : List IcuElement} {out : Record} {k : String}
    (h : preformatFold values msg fv es = .ok out) (hk : recHas out k = true) :
    recHas fv k = true ∨ k ∈ es.map IcuElement.argId := by
  induction es generalizing fv with
  | nil => rw [preformatFold] at h; cases h; exact Or.inl hk
  | cons el rest ih =>
    rw [preformatFold_cons] at h
    obtain ⟨acc, hstep, hrest⟩ := h
    obtain ⟨v, hv⟩ := preformatStep_shape hstep
    rcases ih hrest with hacc | hmem
    · rw [hv] at hacc
      rcases recHas_recSet_inv hacc with hfv | hke
      · exact Or.inl hfv
      · exact Or.inr (by simp [hke])
    · exact Or.inr (by simp [hmem])

theorem checkExtraKeys_preserves_lookup {values : Record} {msg : String}
    {fv : Record} {keys : List String} {out : Record} {k : String} {x : JsonVal}
    (h : checkExtraKeys values msg fv keys = .ok out)
    (hx : recLookup fv k = some x) : recLookup out k = some x := by
  induction keys generalizing fv with
  | nil => rw [checkExtraKeys] at h; cases h; exact hx
  | cons key rest ih =>
    rw [checkExtraKeys] at h
    by_cases h1 : recHas fv key = true
    · rw [if_pos h1] at h
      exact ih h hx
    · rw [if_neg h1] at h
      by_cases h2 : key = "errorCode"
      · rw [if_pos h2] at h
        subst h2
        have hkne : k ≠ "errorCode" := by
          intro hkk
          subst hkk
          exact h1 (by simp [recHas, hx])
        exact ih h (by rw [recLookup_recSet_ne _ _ hkne]; exact hx)
      · rw [if_neg h2] at h
        cases h

theorem checkExtraKeys_error {values : Record} {msg : String} {fv : Record}
    {keys : List String} {k : String}
    (hk : k ∈ keys) (hkh : recHas fv k = false) (hne : k ≠ "errorCode") :
    ∃ e, checkExtraKeys values msg fv keys = .error e := by
  induction keys generalizing fv with
  | nil => cases hk
  | cons key rest ih =>
    rw [checkExtraKeys]
    by_cases h1 : recHas fv key = true
    · rw [if_pos h1]
      have hkk : k ≠ key := by
        intro hc
        subst hc
        rw [h1] at hkh
        cases hkh
      exact ih (by rcases List.mem_cons.mp hk with hc | hc; exact absurd hc hkk; exact hc) hkh
    · rw [if_neg h1]
      by_cases h2 : key = "errorCode"
      · rw [if_pos h2]
        subst h2
        have hkrest : k ∈ rest := by
          rcases List.mem_cons.mp hk with hc | hc
          · exact absurd hc hne
          · exact hc
        refine ih hkrest ?_
        rw [recHas_recSet_ne _ _ hne]
        exact hkh
      · rw [if_neg h2]
        exact ⟨_, rfl⟩

theorem checkExtraKeys_ok (values : Record) (msg : String) (fv : Record)
    (keys : List String)
    (h : ∀ k ∈ keys, recHas fv k = true ∨ k = "errorCode") :
    ∃ out, checkExtraKeys values msg fv keys = .ok out := by
  induction keys generalizing fv with
  | nil => exact ⟨fv, by rw [checkExtraKeys]⟩
  | cons key rest ih =>
    rw [checkExtraKeys]
    by_cases h1 : recHas fv key = true
    · rw [if_pos h1]
      exact ih fv (fun k hk => h k (List.mem_cons_of_mem _ hk))
    · have hkey : key = "errorCode" :=
        (h key (List.mem_cons_self _ _)).resolve_left h1
      rw [if_neg h1, if_pos hkey]
      refine ih _ (fun k hk => ?_)
      rcases h k (List.mem_cons_of_mem _ hk) with hh | he
      · exact Or.inl (recHas_recSet_of_has _ hh)
      · exact Or.inr he

theorem checkExtraKeys_errorCode {values : Record} {msg : String} {fv : Record}
    {keys : List String} {out : Record}
    (h : checkExtraKeys values msg fv keys = .ok out) (hk : "errorCode" ∈ keys)
    (hkh : recHas fv "errorCode" = false) :
    recLookup out "errorCode" = some (recGet values "errorCode") := by
  induction keys generalizing fv with
  | nil => cases hk
  | cons key rest ih =>
    rw [checkExtraKeys] at h
    by_cases h1 : recHas fv key = true
    · rw [if_pos h1] at h
      have hkk : key ≠ "errorCode" := by
        intro hc
        subst hc
        rw [h1] at hkh
        cases hkh
      have hkrest : "errorCode" ∈ rest := by
        rcases List.mem_cons.mp hk with hc | hc
        · exact absurd hc.symm hkk
        · exact hc
      exact ih h hkrest hkh
    · rw [if_neg h1] at h
      by_cases h2 : key = "errorCode"
      · rw [if_pos h2] at h
        subst h2
        exact checkExtraKeys_preserves_lookup h
          (recLookup_recSet_self fv "errorCode" (recGet values "errorCode"))
      · rw [if_neg h2] at h
        cases h

theorem preformatStep_ok (values : Record) (msg : String) (fv : Record)
    (el : IcuElement)
    (h1 : el.argId ≠ "" → recHas values el.argId = true)
    (h2 : ∀ style, el.argFormat = some (.numberFormat style) →
      ∃ q, recGet values el.argId = .num q) :
    ∃ acc, preformatStep values msg fv el = .ok acc := by
  rw [preformatStep]
  have hnc : ¬(el.argId ≠ "" ∧ ¬ recHas values el.argId = true) := by
    rintro ⟨ha, hb⟩
    exact hb (h1 ha)
  rw [if_neg hnc]
  rcases hfe : el.argFormat with _ | fmt
  · exact ⟨_, rfl⟩
  · rcases fmt with style | options | type
    · obtain ⟨q, hq⟩ := h2 style hfe
      rw [hq]
      dsimp only
      by_cases hA : style = "milliseconds"
      · rw [if_pos hA]
        exact ⟨_, rfl⟩
      · rw [if_neg hA]
        by_cases hB : style = "seconds" ∧ el.argId = "timeInMs"
        · rw [if_pos hB]
          exact ⟨_, rfl⟩
        · rw [if_neg hB]
          by_cases hC : style = "bytes"
          · rw [if_pos hC]
            exact ⟨_, rfl⟩
          · rw [if_neg hC]
            exact ⟨_, rfl⟩
    · exact ⟨_, rfl⟩
    · exact ⟨_, rfl⟩

theorem preformatFold_ok (values : Record) (msg : String) (fv : Record)
    (es : List IcuElement)
    (h : ∀ el ∈ es, (el.argId ≠ "" → recHas values el.argId = true) ∧
      (∀ style, el.argFormat = some (.numberFormat style) →
        ∃ q, recGet values el.argId = .num q)) :
    ∃ out, preformatFold values msg fv es = .ok out := by
  induction es generalizing fv with
  | nil => exact ⟨fv, by rw [preformatFold]⟩
  | cons el rest ih =>
    obtain ⟨hh1, hh2⟩ := h el (List.mem_cons_self _ _)
    obtain ⟨acc, hacc⟩ := preformatStep_ok values msg fv el hh1 hh2
    obtain ⟨out, hout⟩ := ih acc (fun e he => h e (List.mem_cons_of_mem _ he))
    exact ⟨out, (preformatFold_cons values msg fv el rest out).mpr ⟨acc, hacc, hout⟩⟩

theorem preformatStep_numberFormat {values : Record} {msg : String} {fv : Record}
    {id style : String} {v : ℚ}
    (hv : recLookup values id = some (.num v)) :
    preformatStep values msg fv (.argumentElement id (some (.numberFormat style))) =
    .ok (recSet fv id (.num (
      if style = "milliseconds" then (jsRound (v / 10) : ℚ) * 10
      else if style = "seconds" ∧ id = "timeInMs" then (jsRound (v / 100) : ℚ) / 10
      else if style = "bytes" then v / 1024
      else v))) := by
  have hhas : recHas values id = true := by simp [recHas, hv]
  have hget : recGet values id = .num v := by simp [recGet, hv]
  rw [preformatStep]
  simp only [IcuElement.argId, IcuElement.argFormat]
  have hnc : ¬(id ≠ "" ∧ ¬ recHas values id = true) := by
    rintro ⟨ha, hb⟩
    exact hb hhas
  rw [if_neg hnc, hget]
  dsimp only
  by_cases hA : style = "milliseconds"
  · rw [if_pos hA, if_pos hA]
  · rw [if_neg hA, if_neg hA]
    by_cases hB : style = "seconds" ∧ id = "timeInMs"
    · rw [if_pos hB, if_pos hB]
    · rw [if_neg hB, if_neg hB]
      by_cases hC : style = "bytes"
      · rw [if_pos hC, if_pos hC]
      · rw [if_neg hC, if_neg hC]

theorem preformatFold_lookup_of_mem {values : Record} {msg : String} {fv : Record}
    {es : List IcuElement} {out : Record} {el : IcuElement}
    (hnd : (es.map IcuElement.argId).Nodup) (hel : el ∈ es)
    (h : preformatFold values msg fv es = .ok out) :
    ∃ acc w, preformatStep values msg acc el = .ok w ∧
      recLookup out el.argId = recLookup w el.argId := by
  induction es generalizing fv with
  | nil => cases hel
  | cons e rest ih =>
    rw [preformatFold_cons] at h
    obtain ⟨acc, hstep, hrest⟩ := h
    rcases List.mem_cons.mp hel with he | he
    · subst he
      have hid : el.argId ∉ rest.map IcuElement.argId := by
        simpa using (List.nodup_cons.mp hnd).1
      exact ⟨fv, acc, hstep, preformatFold_lookup_not_mem hrest hid⟩
    · exact ih (List.nodup_cons.mp hnd).2 he hrest

theorem _preformatValues_eq (elements : List IcuElement) (values : Record)
    (msg : String) :
    _preformatValues elements values msg =
    match preformatFold values msg []
        ((collectAllCustomElementsFromICU elements []).map (·.2)) with
    | .error e => .error e
    | .ok fv => checkExtraKeys values msg fv (values.map (·.1)) := by
  unfold _preformatValues
  cases h : preformatFold values msg []
      ((collectAllCustomElementsFromICU elements []).map (·.2)) with
  | error e => simp [h, Bind.bind, Except.bind]
  | ok fv => simp [h, Bind.bind, Except.bind]

theorem _formatMessage_eq (message : List IcuElement) (values : Record)
    (locale : String) :
    _formatMessage message values locale =
    match _preformatValues message values (astToString message) with
    | .error e => .error e
    | .ok fv =>
      .ok (formatAst message fv
        (if locale = "en-XA" ∨ locale = "en-XL" then "de-DE" else locale)) := by
  rw [_formatMessage]

theorem mapIdsOk_nil : mapIdsOk [] := by
  intro p hp
  cases hp

theorem keysNodup_nil {α : Type} : keysNodup ([] : List (String × α)) := by
  simp [keysNodup]

theorem mapIdsOk_map_argId {m : ElementMap} (h : mapIdsOk m) :
    (m.map (·.2)).map IcuElement.argId = m.map (·.1) := by
  rw [List.map_map]
  apply List.map_congr_left
  intro p hp
  obtain ⟨format, hf⟩ := h p hp
  simp [Function.comp, hf, IcuElement.argId]

theorem _preformatValues_ok_inv {elements : List IcuElement} {values : Record}
    {msg : String} {fv : Record}
    (h : _preformatValues elements values msg = .ok fv) :
    ∃ fv0, preformatFold values msg []
        ((collectAllCustomElementsFromICU elements []).map (·.2)) = .ok fv0 ∧
      checkExtraKeys values msg fv0 (values.map (·.1)) = .ok fv := by
  rw [_preformatValues_eq] at h
  cases hf : preformatFold values msg []
      ((collectAllCustomElementsFromICU elements []).map (·.2)) with
  | error e => rw [hf] at h; cases h
  | ok fv0 => rw [hf] at h; exact ⟨fv0, rfl, h⟩

/-- **C1.** For every argument placeholder collected from the message
template that carries a `numberFormat`, and every numeric provided
value `v` for its id, a successful `_preformatValues` holds, at that
id, the converted value given by the style: `milliseconds` yields
`round(v/10)*10`, `seconds` with id `timeInMs` yields `round(v/100)/10`,
`bytes` yields `v/1024`, and every other number style leaves `v`
unchanged. -/
theorem preformatValues_numberFormat_conversion
    (elements : List IcuElement) (values : Record) (msg : String)
    (id style : String) (v : ℚ) (fv : Record)
    (hel : (id, IcuElement.argumentElement id (some (.numberFormat style))) ∈
      collectAllCustomElementsFromICU elements [])
    (hv : recLookup values id = some (.num v))
    (hok : _preformatValues elements values msg = .ok fv) :
    recLookup fv id = some (.num (
      if style = "milliseconds" then (jsRound (v / 10) : ℚ) * 10
      else if style = "seconds" ∧ id = "timeInMs" then (jsRound (v / 100) : ℚ) / 10
      else if style = "bytes" then v / 1024
      else v)) := by
  obtain ⟨fv0, hfold, hcheck⟩ := _preformatValues_ok_inv hok
  have hwf := collect_wf elements [] mapIdsOk_nil keysNodup_nil
  have hnd : (((collectAllCustomElementsFromICU elements []).map (·.2)).map
      IcuElement.argId).Nodup := by
    rw [mapIdsOk_map_argId hwf.1]
    exact hwf.2
  have helmem : IcuElement.argumentElement id (some (.numberFormat style)) ∈
      (collectAllCustomElementsFromICU elements []).map (·.2) :=
    List.mem_map.mpr ⟨_, hel, rfl⟩
  obtain ⟨acc, w, hstep, hlook⟩ := preformatFold_lookup_of_mem hnd helmem hfold
  rw [preformatStep_numberFormat hv] at hstep
  cases hstep
  simp only [IcuElement.argId] at hlook
  rw [recLookup_recSet_self] at hlook
  exact checkExtraKeys_preserves_lookup hcheck hlook

/-- **C3.** If the message template contains an argument placeholder
(with a nonempty id, as the ICU parser guarantees) whose id is not a
key of the values record, `_formatMessage` throws. -/
theorem formatMessage_throws_on_missing_value
    (message : List IcuElement) (values : Record) (locale : String)
    (id : String) (format : Option IcuFormat)
    (hel : (id, IcuElement.argumentElement id format) ∈
      collectAllCustomElementsFromICU message [])
    (hid : id ≠ "")
    (hmiss : recHas values id = false) :
    ∃ e, _formatMessage message values locale = .error e := by
  cases hp : _preformatValues message values (astToString message) with
  | error e => exact ⟨e, by rw [_formatMessage_eq, hp]⟩
  | ok fv =>
    exfalso
    obtain ⟨fv0, hfold, _⟩ := _preformatValues_ok_inv hp
    have helmem : IcuElement.argumentElement id format ∈
        (collectAllCustomElementsFromICU message []).map (·.2) :=
      List.mem_map.mpr ⟨_, hel, rfl⟩
    have hprov := preformatFold_provided hfold _ helmem
    simp only [IcuElement.argId] at hprov
    rw [hprov hid] at hmiss
    cases hmiss

/-- **C4 (amended).** If the values record contains a key other than
`errorCode` that matches no argument placeholder of the template,
`_formatMessage` throws. -/
theorem formatMessage_throws_on_unmatched_value
    (message : List IcuElement) (values : Record) (locale : String) (k : String)
    (hk : k ∈ values.map (·.1))
    (hne : k ≠ "errorCode")
    (hnp : k ∉ (collectAllCustomElementsFromICU message []).map (·.1)) :
    ∃ e, _formatMessage message values locale = .error e := by
  cases hp : _preformatValues message values (astToString message) with
  | error e => exact ⟨e, by rw [_formatMessage_eq, hp]⟩
  | ok fv =>
    exfalso
    obtain ⟨fv0, hfold, hcheck⟩ := _preformatValues_ok_inv hp
    have hwf := collect_wf message [] mapIdsOk_nil keysNodup_nil
    have hkh : recHas fv0 k = false := by
      cases hc : recHas fv0 k with
      | false => rfl
      | true =>
        exfalso
        rcases preformatFold_has_inv hfold hc with h0 | hmem
        · simp [recHas, recLookup] at h0
        · rw [mapIdsOk_map_argId hwf.1] at hmem
          exact hnp hmem
    obtain ⟨e, he⟩ := checkExtraKeys_error hk hkh hne
    rw [he] at hcheck
    cases hcheck

/-- **C4 (counterexample).** A values record whose only key is
`errorCode` matches no placeholder of the template `"hello"`, yet
`_formatMessage` succeeds instead of throwing. -/
theorem formatMessage_unmatched_errorCode_counterexample :
    collectAllCustomElementsFromICU [IcuElement.messageTextElement "hello"] [] = [] ∧
    _formatMessage [IcuElement.messageTextElement "hello"]
      [("errorCode", JsonVal.num 42)] "en-US" = .ok "hello" := by
  have h1 : collectAllCustomElementsFromICU [IcuElement.messageTextElement "hello"] [] =
      [] := by
    rw [collectAllCustomElementsFromICU, collectAllCustomElementsFromICU]
  refine ⟨h1, ?_⟩
  rw [_formatMessage_eq, _preformatValues_eq, h1]
  rfl

/-- **C10 (counterexample).** With template `\x7ba\x7d` and values
holding only `errorCode`, every provided key other than `errorCode`
(vacuously) matches a placeholder and no `errorCode` placeholder
exists, yet `_preformatValues` throws because the placeholder `a` has
no provided value. -/
theorem preformatValues_errorCode_counterexample :
    collectAllCustomElementsFromICU [IcuElement.argumentElement "a" none] [] =
      [("a", IcuElement.argumentElement "a" none)] ∧
    _preformatValues [IcuElement.argumentElement "a" none]
      [("errorCode", JsonVal.num 1)] "m" =
      .error "ICU Message m contains a value reference (a) that was not provided" := by
  have h1 : collectAllCustomElementsFromICU [IcuElement.argumentElement "a" none] [] =
      [("a", IcuElement.argumentElement "a" none)] := by
    rw [collectAllCustomElementsFromICU]
    · rw [collectAllCustomElementsFromICU]
      simp [recSet, recHas, recLookup]
    · rintro options ⟨⟩
  refine ⟨h1, ?_⟩
  rw [_preformatValues_eq, h1]
  rfl

/-- **C10 (amended).** If the template has no `errorCode` placeholder,
the values record contains `errorCode`, every other provided key
matches a placeholder, and the per-placeholder pass succeeds (every
nonempty placeholder id is provided and number-formatted placeholders
get numeric values), then `_preformatValues` succeeds and copies the
`errorCode` value through unchanged. -/
theorem preformatValues_errorCode_passthrough
    (elements : List IcuElement) (values : Record) (msg : String)
    (hnp : "errorCode" ∉ (collectAllCustomElementsFromICU elements []).map (·.1))
    (hec : "errorCode" ∈ values.map (·.1))
    (hmatch : ∀ k ∈ values.map (·.1), k ≠ "errorCode" →
      k ∈ (collectAllCustomElementsFromICU elements []).map (·.1))
    (hprov : ∀ p ∈ collectAllCustomElementsFromICU elements [],
      p.1 ≠ "" → recHas values p.1 = true)
    (hnum : ∀ p ∈ collectAllCustomElementsFromICU elements [], ∀ style,
      (p : String × IcuElement).2.argFormat = some (.numberFormat style) →
      ∃ q, recGet values p.1 = .num q) :
    ∃ fv, _preformatValues elements values msg = .ok fv ∧
      recLookup fv "errorCode" = some (recGet values "errorCode") := by
  have hwf := collect_wf elements [] mapIdsOk_nil keysNodup_nil
  have hstepok : ∀ el ∈ (collectAllCustomElementsFromICU elements []).map (·.2),
      (el.argId ≠ "" → recHas values el.argId = true) ∧
      (∀ style, el.argFormat = some (.numberFormat style) →
        ∃ q, recGet values el.argId = .num q) := by
    intro el hel
    obtain ⟨p, hp, hpe⟩ := List.mem_map.mp hel
    obtain ⟨format, hf⟩ := hwf.1 p hp
    have hid : el.argId = p.1 := by
      rw [← hpe, hf]
      rfl
    constructor
    · intro hne
      rw [hid] at hne ⊢
      exact hprov p hp hne
    · intro style hs
      rw [hid]
      refine hnum p hp style ?_
      rw [← hpe] at hs
      exact hs
  obtain ⟨fv0, hfold⟩ := preformatFold_ok values msg []
    ((collectAllCustomElementsFromICU elements []).map (·.2)) hstepok
  have hkh : recHas fv0 "errorCode" = false := by
    cases hc : recHas fv0 "errorCode" with
    | false => rfl
    | true =>
      exfalso
      rcases preformatFold_has_inv hfold hc with h0 | hmem
      · simp [recHas, recLookup] at h0
      · rw [mapIdsOk_map_argId hwf.1] at hmem
        exact hnp hmem
  have hcheckhyp : ∀ k ∈ values.map (·.1), recHas fv0 k = true ∨ k = "errorCode" := by
    intro k hk
    by_cases hke : k = "errorCode"
    · exact Or.inr hke
    · left
      obtain ⟨p, hp, hpk⟩ := List.mem_map.mp (hmatch k hk hke)
      have hpmem : p.2 ∈ (collectAllCustomElementsFromICU elements []).map (·.2) :=
        List.mem_map.mpr ⟨p, hp, rfl⟩
      have hhh := preformatFold_has_of_mem hfold hpmem
      obtain ⟨format, hf⟩ := hwf.1 p hp
      have hargid : (p.2).argId = k := by
        rw [hf]
        simpa [IcuElement.argId] using hpk
      rwa [hargid] at hhh
  obtain ⟨fv, hcheck⟩ := checkExtraKeys_ok values msg fv0 (values.map (·.1)) hcheckhyp
  refine ⟨fv, ?_, checkExtraKeys_errorCode hcheck hec hkh⟩
  rw [_preformatValues_eq, hfold]
  exact hcheck

/-- Witness for C1 at a concrete input: a `bytes`-formatted value 2048
is converted to 2048/1024 = 2. -/
theorem preformatValues_numberFormat_conversion_witness :
    _preformatValues [IcuElement.argumentElement "x" (some (.numberFormat "bytes"))]
      [("x", JsonVal.num 2048)] "m" = .ok [("x", JsonVal.num (2048 / 1024))] ∧
    recLookup [("x", JsonVal.num (2048 / 1024))] "x" =
      some (JsonVal.num ((2048 : ℚ) / 1024)) ∧
    ((2048 : ℚ) / 1024) = 2 := by
  have hcol : collectAllCustomElementsFromICU
      [IcuElement.argumentElement "x" (some (.numberFormat "bytes"))] [] =
      [("x", IcuElement.argumentElement "x" (some (.numberFormat "bytes")))] := by
    rw [collectAllCustomElementsFromICU]
    · rw [collectAllCustomElementsFromICU]
      simp [recSet, recHas, recLookup]
    · rintro options ⟨⟩
  have hok : _preformatValues
      [IcuElement.argumentElement "x" (some (.numberFormat "bytes"))]
      [("x", JsonVal.num 2048)] "m" = .ok [("x", JsonVal.num (2048 / 1024))] := by
    rw [_preformatValues_eq, hcol]
    rfl
  refine ⟨hok, ?_, by norm_num⟩
  have hres := preformatValues_numberFormat_conversion
    [IcuElement.argumentElement "x" (some (.numberFormat "bytes"))]
    [("x", JsonVal.num 2048)] "m" "x" "bytes" 2048 [("x", JsonVal.num (2048 / 1024))]
    (by rw [hcol]; exact List.mem_singleton.mpr rfl)
    rfl hok
  rw [if_neg (by decide), if_neg (by decide), if_pos rfl] at hres
  exact hres

/-- Witness for C3 at a concrete input: the placeholder `x` has no
provided value, so `_formatMessage` throws. -/
theorem formatMessage_throws_on_missing_value_witness :
    ∃ e, _formatMessage [IcuElement.argumentElement "x" none] [] "en-US" = .error e := by
  have hcol : collectAllCustomElementsFromICU [IcuElement.argumentElement "x" none] [] =
      [("x", IcuElement.argumentElement "x" none)] := by
    rw [collectAllCustomElementsFromICU]
    · rw [collectAllCustomElementsFromICU]
      simp [recSet, recHas, recLookup]
    · rintro options ⟨⟩
  exact formatMessage_throws_on_missing_value _ _ _ "x" none
    (by rw [hcol]; exact List.mem_singleton.mpr rfl) (by decide) rfl

/-- Witness for the amended C4 at a concrete input: the provided key
`z` matches no placeholder of the template `"hi"`, so `_formatMessage`
throws. -/
theorem formatMessage_throws_on_unmatched_value_witness :
    ∃ e, _formatMessage [IcuElement.messageTextElement "hi"]
      [("z", JsonVal.num 1)] "en-US" = .error e := by
  have hcol : collectAllCustomElementsFromICU [IcuElement.messageTextElement "hi"] [] =
      [] := by
    rw [collectAllCustomElementsFromICU, collectAllCustomElementsFromICU]
  exact formatMessage_throws_on_unmatched_value _ _ _ "z"
    (by simp) (by decide) (by rw [hcol]; simp)

/-- Witness for the amended C10 at a concrete input: `errorCode` is
copied through while the placeholder `a` is formatted normally. -/
theorem preformatValues_errorCode_passthrough_witness :
    ∃ fv, _preformatValues [IcuElement.argumentElement "a" none]
        [("a", JsonVal.str "s"), ("errorCode", JsonVal.num 7)] "m" = .ok fv ∧
      recLookup fv "errorCode" =
        some (recGet [("a", JsonVal.str "s"), ("errorCode", JsonVal.num 7)]
          "errorCode") := by
  have hcol : collectAllCustomElementsFromICU [IcuElement.argumentElement "a" none] [] =
      [("a", IcuElement.argumentElement "a" none)] := by
    rw [collectAllCustomElementsFromICU]
    · rw [collectAllCustomElementsFromICU]
      simp [recSet, recHas, recLookup]
    · rintro options ⟨⟩
  refine preformatValues_errorCode_passthrough _ _ _ ?_ ?_ ?_ ?_ ?_
  · rw [hcol]
    simp
  · simp
  · intro k hk hke
    rw [hcol]
    simp at hk
    rcases hk with h | h
    · simp [h]
    · exact absurd h hke
  · intro p hp hne
    rw [hcol] at hp
    simp at hp
    subst hp
    rfl
  · intro p hp style hs
    rw [hcol] at hp
    simp at hp
    subst hp
    simp [IcuElement.argFormat] at hs

/-- **C5.** For a valid `LH.IcuMessage` whose `i18nId` has a message in
the supported locale's table, `getFormatted` returns `_formatMessage`
applied to the locale's template and the message's values; and a plain
string input is returned unchanged. -/
theorem getFormatted_localizes (store : LocaleStore) (m : JsonVal) (locale : String)
    (lm : LhlMessages) (msgEntry : LhlMessage)
    (hicu : isIcuMessage m = true)
    (hloc : recLookup store locale = some lm)
    (hmsg : recLookup lm (i18nIdOf m) = some msgEntry) :
    getFormatted store m locale =
      _formatMessage msgEntry.message (valuesRecordOf m) locale ∧
    ∀ s : String, getFormatted store (.str s) locale = .ok s := by
  constructor
  · rw [getFormatted, if_pos hicu, _localizeIcuMessage, hloc]
    · dsimp only
      rw [hmsg]
    · intro s hs
      rw [hs] at hicu
      simp [isIcuMessage, isObjectOfUnknownValues] at hicu
  · intro s
    have hni : ¬ isIcuMessage (.str s) = true := by
      simp [isIcuMessage, isObjectOfUnknownValues]
    rw [getFormatted, if_neg hni]

/-- Witness for C5 at a concrete input. -/
theorem getFormatted_localizes_witness :
    getFormatted
        [("en-US", [("f.js | t", LhlMessage.mk [IcuElement.messageTextElement "bonjour"])])]
        (.obj [("i18nId", .str "f.js | t"), ("formattedDefault", .str "dflt")])
        "en-US" =
      _formatMessage [IcuElement.messageTextElement "bonjour"] [] "en-US" ∧
    getFormatted
        [("en-US", [("f.js | t", LhlMessage.mk [IcuElement.messageTextElement "bonjour"])])]
        (.str "raw") "en-US" = .ok "raw" := by
  have h := getFormatted_localizes
    [("en-US", [("f.js | t", LhlMessage.mk [IcuElement.messageTextElement "bonjour"])])]
    (.obj [("i18nId", .str "f.js | t"), ("formattedDefault", .str "dflt")])
    "en-US"
    [("f.js | t", LhlMessage.mk [IcuElement.messageTextElement "bonjour"])]
    (LhlMessage.mk [IcuElement.messageTextElement "bonjour"])
    (by rfl) (by rfl) (by rfl)
  exact ⟨h.1, h.2 "raw"⟩

/-- **C9.** For a valid `LH.IcuMessage` and supported locale, when the
locale's table has no entry for the message's `i18nId`, `getFormatted`
returns the message's `formattedDefault` without throwing. -/
theorem getFormatted_fallback (store : LocaleStore) (m : JsonVal) (locale : String)
    (lm : LhlMessages)
    (hicu : isIcuMessage m = true)
    (hloc : recLookup store locale = some lm)
    (hmsg : recLookup lm (i18nIdOf m) = none) :
    getFormatted store m locale = .ok (formattedDefaultOf m) := by
  rw [getFormatted, if_pos hicu, _localizeIcuMessage, hloc]
  · dsimp only
    rw [hmsg]
  · intro s hs
    rw [hs] at hicu
    simp [isIcuMessage, isObjectOfUnknownValues] at hicu

/-- Witness for C9 at a concrete input. -/
theorem getFormatted_fallback_witness :
    getFormatted [("en-US", [])]
      (.obj [("i18nId", .str "f.js | t"), ("formattedDefault", .str "dflt")])
      "en-US" = .ok "dflt" := by
  have h := getFormatted_fallback [("en-US", [])]
    (.obj [("i18nId", .str "f.js | t"), ("formattedDefault", .str "dflt")])
    "en-US" [] (by rfl) (by rfl) (by rfl)
  exact h

/-- **C7.** Every operation of the module is deterministic: equal
inputs (and an equal locale message store) give equal results for
`_formatMessage` and `replaceIcuMessages`. -/
theorem module_deterministic (m1 m2 : List IcuElement) (v1 v2 : Record)
    (l1 l2 : String) (s1 s2 : LocaleStore) (o1 o2 : JsonVal)
    (hm : m1 = m2) (hv : v1 = v2) (hl : l1 = l2) (hs : s1 = s2) (ho : o1 = o2) :
    _formatMessage m1 v1 l1 = _formatMessage m2 v2 l2 ∧
    replaceIcuMessages s1 o1 l1 = replaceIcuMessages s2 o2 l2 := by
  subst hm
  subst hv
  subst hl
  subst hs
  subst ho
  exact ⟨rfl, rfl⟩

/-- Witness for C7 at a concrete input. -/
theorem module_deterministic_witness :
    _formatMessage [IcuElement.messageTextElement "a"] [] "en-US" =
      _formatMessage [IcuElement.messageTextElement "a"] [] "en-US" ∧
    replaceIcuMessages [] (.str "x") "en-US" =
      replaceIcuMessages [] (.str "x") "en-US" :=
  module_deterministic [IcuElement.messageTextElement "a"]
    [IcuElement.messageTextElement "a"] [] [] "en-US" "en-US" [] []
    (.str "x") (.str "x") rfl rfl rfl rfl rfl

/-- **C8 (counterexample).** `registerLocaleData` is an exported
operation, and it changes the module-level locale message store. -/
theorem registerLocaleData_mutates_counterexample :
    registerLocaleData [] "en-US" [] = [("en-US", [])] ∧
    ([("en-US", [])] : LocaleStore) ≠ [] := by
  constructor
  · rfl
  · simp

/-- **C8 (amended).** `registerLocaleData` changes the store exactly at
the registered locale, setting it to the provided message table and
leaving every other locale's entry unchanged (the remaining exported
operations are pure reads of the store in this embedding). -/
theorem registerLocaleData_updates_only_registered_locale
    (store : LocaleStore) (locale : String) (lhlMessages : LhlMessages) (l : String) :
    recLookup (registerLocaleData store locale lhlMessages) l =
      if l = locale then some lhlMessages else recLookup store l := by
  rw [registerLocaleData]
  by_cases h : l = locale
  · rw [if_pos h, h, recLookup_recSet_self]
  · rw [if_neg h, recLookup_recSet_ne _ _ h]

/-! ### Occurrences of argument elements (for the characterization of
`collectAllCustomElementsFromICU`) -/

/-- An argument element occurring in an element list: at the top
level, or nested (recursively) inside an option of a plural-format
argument element — exactly the positions
`collectAllCustomElementsFromICU` inspects. -/
inductive ArgOccurs : List IcuElement → IcuElement → Prop where
  | top {elements : List IcuElement} {id : String} {format : Option IcuFormat} :
      IcuElement.argumentElement id format ∈ elements →
      ArgOccurs elements (.argumentElement id format)
  | nested {elements : List IcuElement} {id : String} {options : List IcuOption}
      {selector : String} {value : List IcuElement} {el : IcuElement} :
      IcuElement.argumentElement id (some (.pluralFormat options)) ∈ elements →
      IcuOption.mk selector value ∈ options →
      ArgOccurs value el →
      ArgOccurs elements el

/-- An argument element occurring inside one of a plural format's
options. -/
def ArgOccursInOptions (options : List IcuOption) (el : IcuElement) : Prop :=
  ∃ selector value, IcuOption.mk selector value ∈ options ∧ ArgOccurs value el

theorem ArgOccurs.weaken {e el : IcuElement} {rest : List IcuElement}
    (h : ArgOccurs rest el) : ArgOccurs (e :: rest) el := by
  cases h with
  | top hmem => exact .top (List.mem_cons_of_mem _ hmem)
  | nested hmem hopt hval => exact .nested (List.mem_cons_of_mem _ hmem) hopt hval

theorem collect_keys_mono (icuElements : List IcuElement) (seen : ElementMap) :
    ∀ k ∈ seen.map (·.1),
      k ∈ (collectAllCustomElementsFromICU icuElements seen).map (·.1) := by
  refine collectAllCustomElementsFromICU.induct
    (fun icuElements seen => ∀ k ∈ seen.map (·.1),
      k ∈ (collectAllCustomElementsFromICU icuElements seen).map (·.1))
    (fun options seen => ∀ k ∈ seen.map (·.1),
      k ∈ (collectFromPluralOptions options seen).map (·.1))
    ?_ ?_ ?_ ?_ ?_ ?_ icuElements seen
  · intro seen k hk
    rw [collectAllCustomElementsFromICU]
    exact hk
  · intro value rest seen ih k hk
    rw [collectAllCustomElementsFromICU]
    exact ih k hk
  · intro id options rest seen ihOptions ih k hk
    rw [collectAllCustomElementsFromICU]
    exact ih k (ihOptions k (mem_keys_recSet_of_mem _ hk))
  · intro id format rest seen hnp ih k hk
    rw [collectAllCustomElementsFromICU]
    · exact ih k (mem_keys_recSet_of_mem _ hk)
    · exact hnp
  · intro seen k hk
    rw [collectFromPluralOptions]
    exact hk
  · intro selector value rest seen ihValue ih k hk
    rw [collectFromPluralOptions]
    exact ih k (ihValue k hk)

theorem collectFromPluralOptions_keys_mono (options : List IcuOption)
    (seen : ElementMap) :
    ∀ k ∈ seen.map (·.1),
      k ∈ (collectFromPluralOptions options seen).map (·.1) := by
  induction options generalizing seen with
  | nil =>
    intro k hk
    rw [collectFromPluralOptions]
    exact hk
  | cons option rest ih =>
    obtain ⟨selector, value⟩ := option
    intro k hk
    rw [collectFromPluralOptions]
    exact ih _ k (collect_keys_mono value seen k hk)

theorem collect_sound (icuElements : List IcuElement) (seen : ElementMap) :
    ∀ p ∈ collectAllCustomElementsFromICU icuElements seen,
      p ∈ seen ∨ (∃ format, p.2 = IcuElement.argumentElement p.1 format ∧
        ArgOccurs icuElements p.2) := by
  refine collectAllCustomElementsFromICU.induct
    (fun icuElements seen => ∀ p ∈ collectAllCustomElementsFromICU icuElements seen,
      p ∈ seen ∨ (∃ format, p.2 = IcuElement.argumentElement p.1 format ∧
        ArgOccurs icuElements p.2))
    (fun options seen => ∀ p ∈ collectFromPluralOptions options seen,
      p ∈ seen ∨ (∃ format, p.2 = IcuElement.argumentElement p.1 format ∧
        ArgOccursInOptions options p.2))
    ?_ ?_ ?_ ?_ ?_ ?_ icuElements seen
  · intro seen p hp
    rw [collectAllCustomElementsFromICU] at hp
    exact Or.inl hp
  · intro value rest seen ih p hp
    rw [collectAllCustomElementsFromICU] at hp
    rcases ih p hp with h | ⟨format, hf, hocc⟩
    · exact Or.inl h
    · exact Or.inr ⟨format, hf, hocc.weaken⟩
  · intro id options rest seen ihOptions ih p hp
    rw [collectAllCustomElementsFromICU] at hp
    rcases ih p hp with h | ⟨format, hf, hocc⟩
    · rcases ihOptions p h with h1 | ⟨format, hf, sel, value, hoptmem, hocc⟩
      · rcases mem_recSet h1 with h2 | h2
        · exact Or.inl h2
        · refine Or.inr ⟨some (.pluralFormat options), ?_, ?_⟩
          · rw [h2]
          · rw [h2]
            exact .top (List.mem_cons_self _ _)
      · exact Or.inr ⟨format, hf,
          .nested (List.mem_cons_self _ _) hoptmem hocc⟩
    · exact Or.inr ⟨format, hf, hocc.weaken⟩
  · intro id format rest seen hnp ih p hp
    rw [collectAllCustomElementsFromICU] at hp
    · rcases ih p hp with h | ⟨format2, hf, hocc⟩
      · rcases mem_recSet h with h2 | h2
        · exact Or.inl h2
        · refine Or.inr ⟨format, ?_, ?_⟩
          · rw [h2]
          · rw [h2]
            exact .top (List.mem_cons_self _ _)
      · exact Or.inr ⟨format2, hf, hocc.weaken⟩
    · exact hnp
  · intro seen p hp
    rw [collectFromPluralOptions] at hp
    exact Or.inl hp
  · intro selector value rest seen ihValue ih p hp
    rw [collectFromPluralOptions] at hp
    rcases ih p hp with h | ⟨format, hf, sel, value2, hoptmem, hocc⟩
    · rcases ihValue p h with h1 | ⟨format, hf, hocc⟩
      · exact Or.inl h1
      · exact Or.inr ⟨format, hf, selector, value,
          List.mem_cons_self _ _, hocc⟩
    · exact Or.inr ⟨format, hf, sel, value2,
        List.mem_cons_of_mem _ hoptmem, hocc⟩

theorem collect_complete (icuElements : List IcuElement) (seen : ElementMap) :
    ∀ el, ArgOccurs icuElements el →
      el.argId ∈ (collectAllCustomElementsFromICU icuElements seen).map (·.1) := by
  refine collectAllCustomElementsFromICU.induct
    (fun icuElements seen => ∀ el, ArgOccurs icuElements el →
      el.argId ∈ (collectAllCustomElementsFromICU icuElements seen).map (·.1))
    (fun options seen => ∀ el, ArgOccursInOptions options el →
      el.argId ∈ (collectFromPluralOptions options seen).map (·.1))
    ?_ ?_ ?_ ?_ ?_ ?_ icuElements seen
  · intro seen el hocc
    cases hocc with
    | top hmem => cases hmem
    | nested hmem _ _ => cases hmem
  · intro value rest seen ih el hocc
    rw [collectAllCustomElementsFromICU]
    cases hocc with
    | top hmem =>
      rcases List.mem_cons.mp hmem with h | h
      · cases h
      · exact ih _ (.top h)
    | nested hmem hopt hval =>
      rcases List.mem_cons.mp hmem with h | h
      · cases h
      · exact ih _ (.nested h hopt hval)
  · intro id options rest seen ihOptions ih el hocc
    rw [collectAllCustomElementsFromICU]
    cases hocc with
    | top hmem =>
      rcases List.mem_cons.mp hmem with h | h
      · cases h
        refine collect_keys_mono _ _ _ ?_
        refine collectFromPluralOptions_keys_mono _ _ _ ?_
        exact mem_keys_recSet_self _ _ _
      · exact ih _ (.top h)
    | nested hmem hopt hval =>
      rcases List.mem_cons.mp hmem with h | h
      · cases h
        refine collect_keys_mono _ _ _ ?_
        exact ihOptions _ ⟨_, _, hopt, hval⟩
      · exact ih _ (.nested h hopt hval)
  · intro id format rest seen hnp ih el hocc
    rw [collectAllCustomElementsFromICU]
    · cases hocc with
      | top hmem =>
        rcases List.mem_cons.mp hmem with h | h
        · cases h
          refine collect_keys_mono _ _ _ ?_
          exact mem_keys_recSet_self _ _ _
        · exact ih _ (.top h)
      | nested hmem hopt hval =>
        rcases List.mem_cons.mp hmem with h | h
        · cases h
          exact absurd rfl (fun hc => hnp _ hc)
        · exact ih _ (.nested h hopt hval)
    · exact hnp
  · intro seen el hocc
    obtain ⟨sel, value, hmem, _⟩ := hocc
    cases hmem
  · intro selector value rest seen ihValue ih el hocc
    rw [collectFromPluralOptions]
    obtain ⟨sel, value2, hmem, hval⟩ := hocc
    rcases List.mem_cons.mp hmem with h | h
    · cases h
      refine collectFromPluralOptions_keys_mono _ _ _ ?_
      exact ihValue _ hval
    · exact ih _ ⟨sel, value2, h, hval⟩

/-- **C6.** `collectAllCustomElementsFromICU` returns exactly the
argument elements of the list together with those nested recursively
inside plural-format options, deduplicated by keying on the id: every
entry is an occurring argument element keyed on its own id, every
occurring argument element's id is a key, and the keys are pairwise
distinct. -/
theorem collectAllCustomElementsFromICU_characterization
    (icuElements : List IcuElement) :
    keysNodup (collectAllCustomElementsFromICU icuElements []) ∧
    (∀ p ∈ collectAllCustomElementsFromICU icuElements [],
      ∃ format, p.2 = IcuElement.argumentElement p.1 format ∧
        ArgOccurs icuElements p.2) ∧
    (∀ el, ArgOccurs icuElements el →
      el.argId ∈ (collectAllCustomElementsFromICU icuElements []).map (·.1)) := by
  refine ⟨(collect_wf icuElements [] mapIdsOk_nil keysNodup_nil).2, ?_, ?_⟩
  · intro p hp
    rcases collect_sound icuElements [] p hp with h | h
    · cases h
    · exact h
  · exact collect_complete icuElements []

/-- Witness for C6 at a concrete input: the id `b`, which occurs only
nested inside a plural option, is collected, and the collected keys
are distinct. -/
theorem collectAllCustomElementsFromICU_characterization_witness :
    ("b" : String) ∈ (collectAllCustomElementsFromICU
      [IcuElement.argumentElement "a" none,
       IcuElement.argumentElement "p" (some (.pluralFormat
         [IcuOption.mk "one" [IcuElement.argumentElement "a" none,
                              IcuElement.argumentElement "b" none]]))]
      []).map (·.1) ∧
    keysNodup (collectAllCustomElementsFromICU
      [IcuElement.argumentElement "a" none,
       IcuElement.argumentElement "p" (some (.pluralFormat
         [IcuOption.mk "one" [IcuElement.argumentElement "a" none,
                              IcuElement.argumentElement "b" none]]))]
      []) := by
  have h := collectAllCustomElementsFromICU_characterization
    [IcuElement.argumentElement "a" none,
     IcuElement.argumentElement "p" (some (.pluralFormat
       [IcuOption.mk "one" [IcuElement.argumentElement "a" none,
                            IcuElement.argumentElement "b" none]]))]
  refine ⟨h.2.2 (.argumentElement "b" none) ?_, h.1⟩
  exact .nested (List.mem_cons_of_mem _ (List.mem_cons_self _ _))
    (List.mem_cons_self _ _)
    (.top (List.mem_cons_of_mem _ (List.mem_cons_self _ _)))

/-! ### Infrastructure for `replaceIcuMessages` (C2) -/

/-- An entry recorded in an `IcuMessagePaths` map under a message id. -/
def entryIn (paths : IcuMessagePaths) (id : String) (entry : PathEntry) : Prop :=
  ∃ entries, recLookup paths id = some entries ∧ entry ∈ entries

/-- Path maps ordered by entry containment: everything recorded in the
first is recorded in the second. -/
def pathsLe (p q : IcuMessagePaths) : Prop :=
  ∀ id entry, entryIn p id entry → entryIn q id entry

theorem pathsLe_refl (p : IcuMessagePaths) : pathsLe p p := fun _ _ h => h

theorem pathsLe_trans {p q r : IcuMessagePaths} (h1 : pathsLe p q)
    (h2 : pathsLe q r) : pathsLe p r :=
  fun id e h => h2 id e (h1 id e h)

theorem entryIn_pathsAppend_self (paths : IcuMessagePaths) (id : String)
    (entry : PathEntry) : entryIn (pathsAppend paths id entry) id entry := by
  refine ⟨(recLookup paths id).getD [] ++ [entry], ?_, by simp⟩
  rw [pathsAppend, recLookup_recSet_self]

theorem pathsLe_pathsAppend (paths : IcuMessagePaths) (id : String)
    (entry : PathEntry) : pathsLe paths (pathsAppend paths id entry) := by
  intro id2 e ⟨entries, hlook, hmem⟩
  by_cases h : id2 = id
  · subst h
    refine ⟨(recLookup paths id2).getD [] ++ [entry], ?_, ?_⟩
    · rw [pathsAppend, recLookup_recSet_self]
    · rw [hlook]
      simp [hmem]
  · exact ⟨entries, by rw [pathsAppend, recLookup_recSet_ne _ _ h]; exact hlook, hmem⟩

theorem replaceInObject_obj_eq {store : LocaleStore} {locale : String}
    {fields fields2 : List (String × JsonVal)} {paths paths2 : IcuMessagePaths}
    {pin : List String}
    (h : replaceInFields store locale fields paths pin = .ok (fields2, paths2)) :
    replaceInObject store locale (.obj fields) paths pin = .ok (.obj fields2, paths2) := by
  rw [replaceInObject, h]

theorem replaceInObject_arr_eq {store : LocaleStore} {locale : String}
    {items items2 : List JsonVal} {paths paths2 : IcuMessagePaths}
    {pin : List String}
    (h : replaceInItems store locale items paths pin 0 = .ok (items2, paths2)) :
    replaceInObject store locale (.arr items) paths pin = .ok (.arr items2, paths2) := by
  rw [replaceInObject, h]

theorem replaceInObject_other_eq {store : LocaleStore} {locale : String}
    {v : JsonVal} {paths : IcuMessagePaths} {pin : List String}
    (hobj : ∀ fields, v = JsonVal.obj fields → False)
    (harr : ∀ items, v = JsonVal.arr items → False) :
    replaceInObject store locale v paths pin = .ok (v, paths) := by
  rw [replaceInObject]
  · exact hobj
  · exact harr

theorem replaceInFields_nil_eq (store : LocaleStore) (locale : String)
    (paths : IcuMessagePaths) (pin : List String) :
    replaceInFields store locale [] paths pin = .ok ([], paths) := by
  rw [replaceInFields]

theorem replaceInItems_nil_eq (store : LocaleStore) (locale : String)
    (paths : IcuMessagePaths) (pin : List String) (index : Nat) :
    replaceInItems store locale [] paths pin index = .ok ([], paths) := by
  rw [replaceInItems]

theorem replaceInFields_cons_icu_eq {store : LocaleStore} {locale : String}
    {property : String} {value : JsonVal} {rest rest2 : List (String × JsonVal)}
    {paths paths2 : IcuMessagePaths} {pin : List String} {fs ps : String}
    (hicu : isIcuMessage value = true)
    (hgf : getFormatted store value locale = .ok fs)
    (hfp : _formatPathAsString (pin ++ [property]) = .ok ps)
    (hrest : replaceInFields store locale rest
      (pathsAppend paths (i18nIdOf value) (pathEntryFor value ps)) pin =
      .ok (rest2, paths2)) :
    replaceInFields store locale ((property, value) :: rest) paths pin =
      .ok ((property, .str fs) :: rest2, paths2) := by
  rw [replaceInFields, if_pos hicu, hgf]
  dsimp only
  rw [hfp]
  dsimp only
  rw [hrest]

theorem replaceInFields_cons_nonicu_eq {store : LocaleStore} {locale : String}
    {property : String} {value value2 : JsonVal} {rest rest2 : List (String × JsonVal)}
    {paths paths1 paths2 : IcuMessagePaths} {pin : List String}
    (hicu : isIcuMessage value = false)
    (hval : replaceInObject store locale value paths (pin ++ [property]) =
      .ok (value2, paths1))
    (hrest : replaceInFields store locale rest paths1 pin = .ok (rest2, paths2)) :
    replaceInFields store locale ((property, value) :: rest) paths pin =
      .ok ((property, value2) :: rest2, paths2) := by
  rw [replaceInFields, if_neg (by rw [hicu]; exact Bool.false_ne_true), hval]
  dsimp only
  rw [hrest]

theorem replaceInItems_cons_icu_eq {store : LocaleStore} {locale : String}
    {value : JsonVal} {rest rest2 : List JsonVal}
    {paths paths2 : IcuMessagePaths} {pin : List String} {index : Nat} {fs ps : String}
    (hicu : isIcuMessage value = true)
    (hgf : getFormatted store value locale = .ok fs)
    (hfp : _formatPathAsString (pin ++ [toString index]) = .ok ps)
    (hrest : replaceInItems store locale rest
      (pathsAppend paths (i18nIdOf value) (pathEntryFor value ps)) pin (index + 1) =
      .ok (rest2, paths2)) :
    replaceInItems store locale (value :: rest) paths pin index =
      .ok (.str fs :: rest2, paths2) := by
  rw [replaceInItems, if_pos hicu, hgf]
  dsimp only
  rw [hfp]
  dsimp only
  rw [hrest]

theorem replaceInItems_cons_nonicu_eq {store : LocaleStore} {locale : String}
    {value value2 : JsonVal} {rest rest2 : List JsonVal}
    {paths paths1 paths2 : IcuMessagePaths} {pin : List String} {index : Nat}
    (hicu : isIcuMessage value = false)
    (hval : replaceInObject store locale value paths (pin ++ [toString index]) =
      .ok (value2, paths1))
    (hrest : replaceInItems store locale rest paths1 pin (index + 1) =
      .ok (rest2, paths2)) :
    replaceInItems store locale (value :: rest) paths pin index =
      .ok (value2 :: rest2, paths2) := by
  rw [replaceInItems, if_neg (by rw [hicu]; exact Bool.false_ne_true), hval]
  dsimp only
  rw [hrest]

theorem replaceInObject_obj_inv {store : LocaleStore} {locale : String}
    {fields : List (String × JsonVal)} {paths : IcuMessagePaths}
    {pin : List String} {out : JsonVal × IcuMessagePaths}
    (h : replaceInObject store locale (.obj fields) paths pin = .ok out) :
    ∃ fields2 paths2,
      replaceInFields store locale fields paths pin = .ok (fields2, paths2) ∧
      out = (.obj fields2, paths2) := by
  rw [replaceInObject] at h
  cases hf : replaceInFields store locale fields paths pin with
  | error e => rw [hf] at h; cases h
  | ok r =>
    obtain ⟨fields2, paths2⟩ := r
    rw [hf] at h
    dsimp only at h
    cases h
    exact ⟨fields2, paths2, rfl, rfl⟩

theorem replaceInObject_arr_inv {store : LocaleStore} {locale : String}
    {items : List JsonVal} {paths : IcuMessagePaths}
    {pin : List String} {out : JsonVal × IcuMessagePaths}
    (h : replaceInObject store locale (.arr items) paths pin = .ok out) :
    ∃ items2 paths2,
      replaceInItems store locale items paths pin 0 = .ok (items2, paths2) ∧
      out = (.arr items2, paths2) := by
  rw [replaceInObject] at h
  cases hf : replaceInItems store locale items paths pin 0 with
  | error e => rw [hf] at h; cases h
  | ok r =>
    obtain ⟨items2, paths2⟩ := r
    rw [hf] at h
    dsimp only at h
    cases h
    exact ⟨items2, paths2, rfl, rfl⟩

theorem replaceInFields_cons_icu_inv {store : LocaleStore} {locale : String}
    {property : String} {value : JsonVal} {rest : List (String × JsonVal)}
    {paths : IcuMessagePaths} {pin : List String}
    {out : List (String × JsonVal) × IcuMessagePaths}
    (hicu : isIcuMessage value = true)
    (h : replaceInFields store locale ((property, value) :: rest) paths pin = .ok out) :
    ∃ fs ps rest2 paths2,
      getFormatted store value locale = .ok fs ∧
      _formatPathAsString (pin ++ [property]) = .ok ps ∧
      replaceInFields store locale rest
        (pathsAppend paths (i18nIdOf value) (pathEntryFor value ps)) pin =
        .ok (rest2, paths2) ∧
      out = ((property, .str fs) :: rest2, paths2) := by
  rw [replaceInFields, if_pos hicu] at h
  cases hgf : getFormatted store value locale with
  | error e => rw [hgf] at h; cases h
  | ok fs =>
    rw [hgf] at h
    dsimp only at h
    cases hfp : _formatPathAsString (pin ++ [property]) with
    | error e => rw [hfp] at h; cases h
    | ok ps =>
      rw [hfp] at h
      dsimp only at h
      cases hrest : replaceInFields store locale rest
          (pathsAppend paths (i18nIdOf value) (pathEntryFor value ps)) pin with
      | error e => rw [hrest] at h; cases h
      | ok r =>
        obtain ⟨rest2, paths2⟩ := r
        rw [hrest] at h
        dsimp only at h
        cases h
        exact ⟨fs, ps, rest2, paths2, rfl, rfl, hrest, rfl⟩

theorem replaceInFields_cons_nonicu_inv {store : LocaleStore} {locale : String}
    {property : String} {value : JsonVal} {rest : List (String × JsonVal)}
    {paths : IcuMessagePaths} {pin : List String}
    {out : List (String × JsonVal) × IcuMessagePaths}
    (hicu : isIcuMessage value = false)
    (h : replaceInFields store locale ((property, value) :: rest) paths pin = .ok out) :
    ∃ value2 paths1 rest2 paths2,
      replaceInObject store locale value paths (pin ++ [property]) = .ok (value2, paths1) ∧
      replaceInFields store locale rest paths1 pin = .ok (rest2, paths2) ∧
      out = ((property, value2) :: rest2, paths2) := by
  rw [replaceInFields, if_neg (by rw [hicu]; exact Bool.false_ne_true)] at h
  cases hval : replaceInObject store locale value paths (pin ++ [property]) with
  | error e => rw [hval] at h; cases h
  | ok r =>
    obtain ⟨value2, paths1⟩ := r
    rw [hval] at h
    dsimp only at h
    cases hrest : replaceInFields store locale rest paths1 pin with
    | error e => rw [hrest] at h; cases h
    | ok r2 =>
      obtain ⟨rest2, paths2⟩ := r2
      rw [hrest] at h
      dsimp only at h
      cases h
      exact ⟨value2, paths1, rest2, paths2, rfl, hrest, rfl⟩

theorem replaceInItems_cons_icu_inv {store : LocaleStore} {locale : String}
    {value : JsonVal} {rest : List JsonVal}
    {paths : IcuMessagePaths} {pin : List String} {index : Nat}
    {out : List JsonVal × IcuMessagePaths}
    (hicu : isIcuMessage value = true)
    (h : replaceInItems store locale (value :: rest) paths pin index = .ok out) :
    ∃ fs ps rest2 paths2,
      getFormatted store value locale = .ok fs ∧
      _formatPathAsString (pin ++ [toString index]) = .ok ps ∧
      replaceInItems store locale rest
        (pathsAppend paths (i18nIdOf value) (pathEntryFor value ps)) pin (index + 1) =
        .ok (rest2, paths2) ∧
      out = (.str fs :: rest2, paths2) := by
  rw [replaceInItems, if_pos hicu] at h
  cases hgf : getFormatted store value locale with
  | error e => rw [hgf] at h; cases h
  | ok fs =>
    rw [hgf] at h
    dsimp only at h
    cases hfp : _formatPathAsString (pin ++ [toString index]) with
    | error e => rw [hfp] at h; cases h
    | ok ps =>
      rw [hfp] at h
      dsimp only at h
      cases hrest : replaceInItems store locale rest
          (pathsAppend paths (i18nIdOf value) (pathEntryFor value ps)) pin (index + 1) with
      | error e => rw [hrest] at h; cases h
      | ok r =>
        obtain ⟨rest2, paths2⟩ := r
        rw [hrest] at h
        dsimp only at h
        cases h
        exact ⟨fs, ps, rest2, paths2, rfl, rfl, hrest, rfl⟩

theorem replaceInItems_cons_nonicu_inv {store : LocaleStore} {locale : String}
    {value : JsonVal} {rest : List JsonVal}
    {paths : IcuMessagePaths} {pin : List String} {index : Nat}
    {out : List JsonVal × IcuMessagePaths}
    (hicu : isIcuMessage value = false)
    (h : replaceInItems store locale (value :: rest) paths pin index = .ok out) :
    ∃ value2 paths1 rest2 paths2,
      replaceInObject store locale value paths (pin ++ [toString index]) =
        .ok (value2, paths1) ∧
      replaceInItems store locale rest paths1 pin (index + 1) = .ok (rest2, paths2) ∧
      out = (value2 :: rest2, paths2) := by
  rw [replaceInItems, if_neg (by rw [hicu]; exact Bool.false_ne_true)] at h
  cases hval : replaceInObject store locale value paths (pin ++ [toString index]) with
  | error e => rw [hval] at h; cases h
  | ok r =>
    obtain ⟨value2, paths1⟩ := r
    rw [hval] at h
    dsimp only at h
    cases hrest : replaceInItems store locale rest paths1 pin (index + 1) with
    | error e => rw [hrest] at h; cases h
    | ok r2 =>
      obtain ⟨rest2, paths2⟩ := r2
      rw [hrest] at h
      dsimp only at h
      cases h
      exact ⟨value2, paths1, rest2, paths2, rfl, hrest, rfl⟩

theorem replace_mono_aux (store : LocaleStore) (locale : String) : ∀ n : Nat,
    (∀ (v : JsonVal) (paths : IcuMessagePaths) (pin : List String)
      (out : JsonVal) (paths2 : IcuMessagePaths), sizeOf v = n →
      replaceInObject store locale v paths pin = .ok (out, paths2) →
      pathsLe paths paths2) ∧
    (∀ (items : List JsonVal) (paths : IcuMessagePaths) (pin : List String)
      (index : Nat) (out : List JsonVal) (paths2 : IcuMessagePaths),
      sizeOf items = n →
      replaceInItems store locale items paths pin index = .ok (out, paths2) →
      pathsLe paths paths2) ∧
    (∀ (fields : List (String × JsonVal)) (paths : IcuMessagePaths)
      (pin : List String) (out : List (String × JsonVal))
      (paths2 : IcuMessagePaths), sizeOf fields = n →
      replaceInFields store locale fields paths pin = .ok (out, paths2) →
      pathsLe paths paths2) := by
  intro n
  induction n using Nat.strong_induction_on with
  | _ n ih =>
    refine ⟨?_, ?_, ?_⟩
    · intro v paths pin out paths2 hsz hok
      cases v with
      | obj fields =>
        obtain ⟨fields2, p2, hf, he⟩ := replaceInObject_obj_inv hok
        cases he
        exact (ih (sizeOf fields) (by rw [← hsz]; simp)).2.2
          fields paths pin fields2 paths2 rfl hf
      | arr items =>
        obtain ⟨items2, p2, hf, he⟩ := replaceInObject_arr_inv hok
        cases he
        exact (ih (sizeOf items) (by rw [← hsz]; simp)).2.1
          items paths pin 0 items2 paths2 rfl hf
      | str sv =>
        rw [replaceInObject_other_eq (by rintro _ ⟨⟩) (by rintro _ ⟨⟩)] at hok
        cases hok
        exact pathsLe_refl paths
      | num q =>
        rw [replaceInObject_other_eq (by rintro _ ⟨⟩) (by rintro _ ⟨⟩)] at hok
        cases hok
        exact pathsLe_refl paths
      | bool b =>
        rw [replaceInObject_other_eq (by rintro _ ⟨⟩) (by rintro _ ⟨⟩)] at hok
        cases hok
        exact pathsLe_refl paths
      | null =>
        rw [replaceInObject_other_eq (by rintro _ ⟨⟩) (by rintro _ ⟨⟩)] at hok
        cases hok
        exact pathsLe_refl paths
      | undefined =>
        rw [replaceInObject_other_eq (by rintro _ ⟨⟩) (by rintro _ ⟨⟩)] at hok
        cases hok
        exact pathsLe_refl paths
    · intro items paths pin index out paths2 hsz hok
      cases items with
      | nil =>
        rw [replaceInItems_nil_eq] at hok
        cases hok
        exact pathsLe_refl paths
      | cons value rest =>
        by_cases hicu : isIcuMessage value = true
        · obtain ⟨fs, ps, rest2, p2, hgf, hfp, hrest, he⟩ :=
            replaceInItems_cons_icu_inv hicu hok
          cases he
          have hmono := (ih (sizeOf rest) (by rw [← hsz]; simp)).2.1
            rest _ pin (index + 1) rest2 paths2 rfl hrest
          exact pathsLe_trans
            (pathsLe_pathsAppend paths (i18nIdOf value) (pathEntryFor value ps)) hmono
        · have hicu2 : isIcuMessage value = false := by simpa using hicu
          obtain ⟨value2, paths1, rest2, p2, hval, hrest, he⟩ :=
            replaceInItems_cons_nonicu_inv hicu2 hok
          cases he
          refine pathsLe_trans
            ((ih (sizeOf value) (by rw [← hsz]; simp; omega)).1
              value paths _ value2 paths1 rfl hval) ?_
          exact (ih (sizeOf rest) (by rw [← hsz]; simp)).2.1
            rest paths1 pin (index + 1) rest2 paths2 rfl hrest
    · intro fields paths pin out paths2 hsz hok
      cases fields with
      | nil =>
        rw [replaceInFields_nil_eq] at hok
        cases hok
        exact pathsLe_refl paths
      | cons pv rest =>
        obtain ⟨property, value⟩ := pv
        by_cases hicu : isIcuMessage value = true
        · obtain ⟨fs, ps, rest2, p2, hgf, hfp, hrest, he⟩ :=
            replaceInFields_cons_icu_inv hicu hok
          cases he
          have hmono := (ih (sizeOf rest) (by rw [← hsz]; simp)).2.2
            rest _ pin rest2 paths2 rfl hrest
          exact pathsLe_trans
            (pathsLe_pathsAppend paths (i18nIdOf value) (pathEntryFor value ps)) hmono
        · have hicu2 : isIcuMessage value = false := by simpa using hicu
          obtain ⟨value2, paths1, rest2, p2, hval, hrest, he⟩ :=
            replaceInFields_cons_nonicu_inv hicu2 hok
          cases he
          refine pathsLe_trans
            ((ih (sizeOf value) (by rw [← hsz]; simp; omega)).1
              value paths _ value2 paths1 rfl hval) ?_
          exact (ih (sizeOf rest) (by rw [← hsz]; simp)).2.2
            rest paths1 pin rest2 paths2 rfl hrest

theorem replace_mono_fields {store : LocaleStore} {locale : String}
    {fields : List (String × JsonVal)} {paths : IcuMessagePaths}
    {pin : List String} {out : List (String × JsonVal)} {paths2 : IcuMessagePaths}
    (h : replaceInFields store locale fields paths pin = .ok (out, paths2)) :
    pathsLe paths paths2 :=
  (replace_mono_aux store locale (sizeOf fields)).2.2 fields paths pin out paths2 rfl h

theorem replace_mono_items {store : LocaleStore} {locale : String}
    {items : List JsonVal} {paths : IcuMessagePaths} {pin : List String}
    {index : Nat} {out : List JsonVal} {paths2 : IcuMessagePaths}
    (h : replaceInItems store locale items paths pin index = .ok (out, paths2)) :
    pathsLe paths paths2 :=
  (replace_mono_aux store locale (sizeOf items)).2.1 items paths pin index out paths2 rfl h

theorem replaceInFields_lookup {store : LocaleStore} {locale : String}
    {fields : List (String × JsonVal)} {paths : IcuMessagePaths}
    {pin : List String} {fields2 : List (String × JsonVal)}
    {paths2 : IcuMessagePaths} {k : String} {w : JsonVal}
    (h : replaceInFields store locale fields paths pin = .ok (fields2, paths2))
    (hk : recLookup fields k = some w) :
    (isIcuMessage w = true →
      ∃ fs ps, getFormatted store w locale = .ok fs ∧
        _formatPathAsString (pin ++ [k]) = .ok ps ∧
        recLookup fields2 k = some (.str fs) ∧
        entryIn paths2 (i18nIdOf w) (pathEntryFor w ps)) ∧
    (isIcuMessage w = false →
      ∃ pa pb w2, replaceInObject store locale w pa (pin ++ [k]) = .ok (w2, pb) ∧
        recLookup fields2 k = some w2 ∧ pathsLe pb paths2) := by
  induction fields generalizing paths fields2 with
  | nil => rw [recLookup] at hk; cases hk
  | cons pv rest ih =>
    obtain ⟨property, value⟩ := pv
    by_cases hicu : isIcuMessage value = true
    · obtain ⟨fs, ps, rest2, p2, hgf, hfp, hrest, he⟩ :=
        replaceInFields_cons_icu_inv hicu h
      cases he
      by_cases hkp : property = k
      · subst hkp
        rw [recLookup_cons, if_pos rfl] at hk
        cases hk
        constructor
        · intro _
          refine ⟨fs, ps, hgf, hfp, ?_, ?_⟩
          · rw [recLookup_cons, if_pos rfl]
          · exact replace_mono_fields hrest _ _
              (entryIn_pathsAppend_self paths (i18nIdOf w) (pathEntryFor w ps))
        · intro hfalse
          rw [hicu] at hfalse
          cases hfalse
      · rw [recLookup_cons, if_neg hkp] at hk
        have ihr := ih hrest hk
        constructor
        · intro hw
          obtain ⟨fs2, ps2, a, b, c, d⟩ := ihr.1 hw
          refine ⟨fs2, ps2, a, b, ?_, d⟩
          rw [recLookup_cons, if_neg hkp]
          exact c
        · intro hw
          obtain ⟨pa, pb, w2, a, b, c⟩ := ihr.2 hw
          refine ⟨pa, pb, w2, a, ?_, c⟩
          rw [recLookup_cons, if_neg hkp]
          exact b
    · have hicu2 : isIcuMessage value = false := by simpa using hicu
      obtain ⟨value2, paths1, rest2, p2, hval, hrest, he⟩ :=
        replaceInFields_cons_nonicu_inv hicu2 h
      cases he
      by_cases hkp : property = k
      · subst hkp
        rw [recLookup_cons, if_pos rfl] at hk
        cases hk
        constructor
        · intro htrue
          rw [hicu2] at htrue
          cases htrue
        · intro _
          refine ⟨paths, paths1, value2, hval, ?_, replace_mono_fields hrest⟩
          rw [recLookup_cons, if_pos rfl]
      · rw [recLookup_cons, if_neg hkp] at hk
        have ihr := ih hrest hk
        constructor
        · intro hw
          obtain ⟨fs2, ps2, a, b, c, d⟩ := ihr.1 hw
          refine ⟨fs2, ps2, a, b, ?_, d⟩
          rw [recLookup_cons, if_neg hkp]
          exact c
        · intro hw
          obtain ⟨pa, pb, w2, a, b, c⟩ := ihr.2 hw
          refine ⟨pa, pb, w2, a, ?_, c⟩
          rw [recLookup_cons, if_neg hkp]
          exact b

theorem replaceInItems_lookup {store : LocaleStore} {locale : String}
    {items : List JsonVal} {paths : IcuMessagePaths}
    {pin : List String} {index : Nat} {items2 : List JsonVal}
    {paths2 : IcuMessagePaths} {j : Nat} {w : JsonVal}
    (h : replaceInItems store locale items paths pin index = .ok (items2, paths2))
    (hj : items[j]? = some w) :
    (isIcuMessage w = true →
      ∃ fs ps, getFormatted store w locale = .ok fs ∧
        _formatPathAsString (pin ++ [toString (index + j)]) = .ok ps ∧
        items2[j]? = some (.str fs) ∧
        entryIn paths2 (i18nIdOf w) (pathEntryFor w ps)) ∧
    (isIcuMessage w = false →
      ∃ pa pb w2,
        replaceInObject store locale w pa (pin ++ [toString (index + j)]) = .ok (w2, pb) ∧
        items2[j]? = some w2 ∧ pathsLe pb paths2) := by
  induction items generalizing paths items2 index j with
  | nil => simp at hj
  | cons value rest ih =>
    by_cases hicu : isIcuMessage value = true
    · obtain ⟨fs, ps, rest2, p2, hgf, hfp, hrest, he⟩ :=
        replaceInItems_cons_icu_inv hicu h
      cases he
      cases j with
      | zero =>
        simp only [List.getElem?_cons_zero] at hj
        cases hj
        constructor
        · intro _
          refine ⟨fs, ps, hgf, by simpa using hfp, by simp, ?_⟩
          exact replace_mono_items hrest _ _
            (entryIn_pathsAppend_self paths (i18nIdOf w) (pathEntryFor w ps))
        · intro hfalse
          rw [hicu] at hfalse
          cases hfalse
      | succ j2 =>
        simp only [List.getElem?_cons_succ] at hj
        have harith : index + 1 + j2 = index + (j2 + 1) := by omega
        have ihr := ih hrest hj
        rw [harith] at ihr
        constructor
        · intro hw
          obtain ⟨fs2, ps2, a, b, c, d⟩ := ihr.1 hw
          exact ⟨fs2, ps2, a, b, by simpa using c, d⟩
        · intro hw
          obtain ⟨pa, pb, w2, a, b, c⟩ := ihr.2 hw
          exact ⟨pa, pb, w2, a, by simpa using b, c⟩
    · have hicu2 : isIcuMessage value = false := by simpa using hicu
      obtain ⟨value2, paths1, rest2, p2, hval, hrest, he⟩ :=
        replaceInItems_cons_nonicu_inv hicu2 h
      cases he
      cases j with
      | zero =>
        simp only [List.getElem?_cons_zero] at hj
        cases hj
        constructor
        · intro htrue
          rw [hicu2] at htrue
          cases htrue
        · intro _
          refine ⟨paths, paths1, value2, by simpa using hval, by simp,
            replace_mono_items hrest⟩
      | succ j2 =>
        simp only [List.getElem?_cons_succ] at hj
        have harith : index + 1 + j2 = index + (j2 + 1) := by omega
        have ihr := ih hrest hj
        rw [harith] at ihr
        constructor
        · intro hw
          obtain ⟨fs2, ps2, a, b, c, d⟩ := ihr.1 hw
          exact ⟨fs2, ps2, a, b, by simpa using c, d⟩
        · intro hw
          obtain ⟨pa, pb, w2, a, b, c⟩ := ihr.2 hw
          exact ⟨pa, pb, w2, a, by simpa using b, c⟩

/-- The value reached by following a path in an embedded document:
object steps go to the (first) property with the given key, array
steps go to the element whose decimal index string is the path
component — the addressing scheme of `Object.entries`. -/
inductive ValueAt : JsonVal → List String → JsonVal → Prop where
  | here {v : JsonVal} : ValueAt v [] v
  | objStep {fields : List (String × JsonVal)} {k : String} {w x : JsonVal}
      {p : List String} :
      recLookup fields k = some w → ValueAt w p x →
      ValueAt (.obj fields) (k :: p) x
  | arrStep {items : List JsonVal} {j : Nat} {w x : JsonVal} {p : List String} :
      items[j]? = some w → ValueAt w p x →
      ValueAt (.arr items) (toString j :: p) x

/-- A property location holding an `LH.IcuMessage`: the path steps
through objects and arrays whose intermediate values are not
themselves IcuMessages (the walk does not descend into a replaced
message), ending at a property value that is one. -/
inductive IcuLoc : JsonVal → List String → JsonVal → Prop where
  | objHere {fields : List (String × JsonVal)} {k : String} {x : JsonVal} :
      recLookup fields k = some x → isIcuMessage x = true →
      IcuLoc (.obj fields) [k] x
  | arrHere {items : List JsonVal} {j : Nat} {x : JsonVal} :
      items[j]? = some x → isIcuMessage x = true →
      IcuLoc (.arr items) [toString j] x
  | objThere {fields : List (String × JsonVal)} {k : String} {w x : JsonVal}
      {p : List String} :
      recLookup fields k = some w → isIcuMessage w = false →
      IcuLoc w p x → IcuLoc (.obj fields) (k :: p) x
  | arrThere {items : List JsonVal} {j : Nat} {w x : JsonVal} {p : List String} :
      items[j]? = some w → isIcuMessage w = false →
      IcuLoc w p x → IcuLoc (.arr items) (toString j :: p) x

theorem replaceInObject_IcuLoc {store : LocaleStore} {locale : String}
    {v : JsonVal} {p : List String} {x : JsonVal}
    (hloc : IcuLoc v p x) :
    ∀ {paths0 : IcuMessagePaths} {pin : List String} {out : JsonVal}
      {paths1 : IcuMessagePaths},
    replaceInObject store locale v paths0 pin = .ok (out, paths1) →
    ∃ fs ps, getFormatted store x locale = .ok fs ∧
      _formatPathAsString (pin ++ p) = .ok ps ∧
      ValueAt out p (.str fs) ∧
      entryIn paths1 (i18nIdOf x) (pathEntryFor x ps) := by
  induction hloc with
  | objHere hk hicu =>
    intro paths0 pin out paths1 hok
    obtain ⟨fields2, p2, hf, he⟩ := replaceInObject_obj_inv hok
    cases he
    obtain ⟨fs, ps, hgf, hfp, hlook, hin⟩ := (replaceInFields_lookup hf hk).1 hicu
    exact ⟨fs, ps, hgf, hfp, .objStep hlook .here, hin⟩
  | arrHere hj hicu =>
    intro paths0 pin out paths1 hok
    obtain ⟨items2, p2, hf, he⟩ := replaceInObject_arr_inv hok
    cases he
    obtain ⟨fs, ps, hgf, hfp, hlook, hin⟩ := (replaceInItems_lookup hf hj).1 hicu
    rw [Nat.zero_add] at hfp
    exact ⟨fs, ps, hgf, hfp, .arrStep hlook .here, hin⟩
  | objThere hk hwicu hsub ih =>
    intro paths0 pin out paths1 hok
    obtain ⟨fields2, p2, hf, he⟩ := replaceInObject_obj_inv hok
    cases he
    obtain ⟨pa, pb, w2, hvalcall, hlook2, hple⟩ :=
      (replaceInFields_lookup hf hk).2 hwicu
    obtain ⟨fs, ps, hgf, hfp, hvat, hin⟩ := ih hvalcall
    refine ⟨fs, ps, hgf, ?_, .objStep hlook2 hvat, hple _ _ hin⟩
    rw [List.append_cons]
    exact hfp
  | arrThere hj hwicu hsub ih =>
    intro paths0 pin out paths1 hok
    obtain ⟨items2, p2, hf, he⟩ := replaceInObject_arr_inv hok
    cases he
    obtain ⟨pa, pb, w2, hvalcall, hlook2, hple⟩ :=
      (replaceInItems_lookup hf hj).2 hwicu
    rw [Nat.zero_add] at hvalcall
    obtain ⟨fs, ps, hgf, hfp, hvat, hin⟩ := ih hvalcall
    refine ⟨fs, ps, hgf, ?_, .arrStep hlook2 hvat, hple _ _ hin⟩
    rw [List.append_cons]
    exact hfp

/-- **C2.** A successful `replaceIcuMessages` replaces every property
value that is an `LH.IcuMessage` (reached through non-message objects
and arrays) with its localized formatted string, and records, under
the message's `i18nId`, the formatted path of every replaced location,
paired with the message's `values` when that field is set
(`pathEntryFor`). -/
theorem replaceIcuMessages_replaces_and_records
    (store : LocaleStore) (inputObject : JsonVal) (locale : String)
    (out : JsonVal) (icuMessagePaths : IcuMessagePaths)
    (p : List String) (x : JsonVal)
    (hok : replaceIcuMessages store inputObject locale = .ok (out, icuMessagePaths))
    (hloc : IcuLoc inputObject p x) :
    ∃ formattedString pathAsString,
      getFormatted store x locale = .ok formattedString ∧
      _formatPathAsString p = .ok pathAsString ∧
      ValueAt out p (.str formattedString) ∧
      entryIn icuMessagePaths (i18nIdOf x) (pathEntryFor x pathAsString) := by
  rw [replaceIcuMessages] at hok
  have h := replaceInObject_IcuLoc hloc hok
  simpa using h

/-- Witness for C2 at a concrete input: a document with one
`LH.IcuMessage` at path `t` is rewritten to its localized string and
the path map records the location. -/
theorem replaceIcuMessages_replaces_and_records_witness :
    ∃ formattedString pathAsString,
      getFormatted
          [("en-US", [("f.js | t",
            LhlMessage.mk [IcuElement.messageTextElement "bonjour"])])]
          (.obj [("i18nId", .str "f.js | t"), ("formattedDefault", .str "d")])
          "en-US" = .ok formattedString ∧
      _formatPathAsString ["t"] = .ok pathAsString ∧
      ValueAt (.obj [("t", .str "bonjour")]) ["t"] (.str formattedString) ∧
      entryIn [("f.js | t", [PathEntry.pathOnly "t"])]
        (i18nIdOf (.obj [("i18nId", .str "f.js | t"), ("formattedDefault", .str "d")]))
        (pathEntryFor
          (.obj [("i18nId", .str "f.js | t"), ("formattedDefault", .str "d")])
          pathAsString) := by
  have hicu : isIcuMessage
      (.obj [("i18nId", JsonVal.str "f.js | t"), ("formattedDefault", JsonVal.str "d")]) =
      true := rfl
  have hcol0 : collectAllCustomElementsFromICU
      [IcuElement.messageTextElement "bonjour"] [] = [] := by
    rw [collectAllCustomElementsFromICU, collectAllCustomElementsFromICU]
  have hpre : _preformatValues [IcuElement.messageTextElement "bonjour"] []
      (astToString [IcuElement.messageTextElement "bonjour"]) = .ok [] := by
    rw [_preformatValues_eq, hcol0]
    rfl
  have hfm : _formatMessage [IcuElement.messageTextElement "bonjour"] [] "en-US" =
      .ok "bonjour" := by
    rw [_formatMessage_eq, hpre]
    rfl
  have hgf : getFormatted
      [("en-US", [("f.js | t",
        LhlMessage.mk [IcuElement.messageTextElement "bonjour"])])]
      (.obj [("i18nId", .str "f.js | t"), ("formattedDefault", .str "d")])
      "en-US" = .ok "bonjour" := by
    rw [getFormatted]
    · rw [if_pos hicu, _localizeIcuMessage]
      have hl : recLookup
          [("en-US", [("f.js | t",
            LhlMessage.mk [IcuElement.messageTextElement "bonjour"])])] "en-US" =
          some [("f.js | t", LhlMessage.mk [IcuElement.messageTextElement "bonjour"])] :=
        rfl
      rw [hl]
      dsimp only
      have hm : recLookup
          [("f.js | t", LhlMessage.mk [IcuElement.messageTextElement "bonjour"])]
          (i18nIdOf (.obj [("i18nId", .str "f.js | t"),
            ("formattedDefault", .str "d")])) =
          some (LhlMessage.mk [IcuElement.messageTextElement "bonjour"]) := rfl
      rw [hm]
      dsimp only
      exact hfm
    · rintro s ⟨⟩
  have hfp : _formatPathAsString (([] : List String) ++ ["t"]) = .ok "t" := rfl
  have hfields : replaceInFields
      [("en-US", [("f.js | t",
        LhlMessage.mk [IcuElement.messageTextElement "bonjour"])])] "en-US"
      [("t", .obj [("i18nId", .str "f.js | t"), ("formattedDefault", .str "d")])]
      [] [] =
      .ok ([("t", .str "bonjour")],
        pathsAppend []
          (i18nIdOf (.obj [("i18nId", .str "f.js | t"), ("formattedDefault", .str "d")]))
          (pathEntryFor
            (.obj [("i18nId", .str "f.js | t"), ("formattedDefault", .str "d")]) "t")) :=
    replaceInFields_cons_icu_eq hicu hgf hfp
      (replaceInFields_nil_eq _ _ _ _)
  have hok : replaceIcuMessages
      [("en-US", [("f.js | t",
        LhlMessage.mk [IcuElement.messageTextElement "bonjour"])])]
      (.obj [("t", .obj [("i18nId", .str "f.js | t"),
        ("formattedDefault", .str "d")])]) "en-US" =
      .ok (.obj [("t", .str "bonjour")], [("f.js | t", [PathEntry.pathOnly "t"])]) := by
    rw [replaceIcuMessages]
    exact replaceInObject_obj_eq hfields
  have hloc : IcuLoc
      (.obj [("t", .obj [("i18nId", .str "f.js | t"), ("formattedDefault", .str "d")])])
      ["t"]
      (.obj [("i18nId", .str "f.js | t"), ("formattedDefault", .str "d")]) :=
    .objHere rfl hicu
  exact replaceIcuMessages_replaces_and_records _ _ _ _ _ _ _ hok hloc

end Lighthouse
